import Mathlib

/-!
# Polyline simplification (`simplify.h`)

A shallow embedding of the C++ header `src/simplify.h`: squared distances,
the radial-distance filter, the Douglas-Peucker refiner and the `simplify`
entry point, followed by theorems about them.

Conventions of the embedding.

* `Distance` is an arbitrary linearly ordered field `α` (exact arithmetic).
* `std::vector<Point>` is `List (Point α)`; `v[i]` is the checked lookup
  `v[i]?`, so a function returns `none` exactly when the C++ code would index
  outside its vector.
* `size_t` indices are `Nat` and index subtraction is truncated subtraction.
  No subtraction wraps on a path the model lets through: `points.size() - 1`
  is computed after `points[0]` was read or under `points.size() > 2`, the
  radial loop runs with `i ≥ 1`, and `index - first`, `last - index` are
  computed only where `first < index < last` (`dpScan_range`).
* A counted loop `for (i = a; i < b; i++)` is a structural recursion on the
  number `b - a` of iterations still to run, carrying `i` and the loop state.
* `push_back` on the output vector is `out ++ [p]`; a vector passed by
  reference is passed in and returned.
* Two functions are embedded a second time with one effect made explicit:
  `getSqSegDistChecked` fails on a division by zero, and
  `simplifyDPStepDepth` fails when its recursion exceeds a depth budget.
-/

namespace Simplify

/-- A point with two coordinates of the scalar type. -/
structure Point (α : Type) where
  x : α
  y : α
deriving DecidableEq

variable {α : Type} [LinearOrderedField α]

/-- Source lines 11-16: square distance between two points. -/
def getSqDist (p1 p2 : Point α) : α :=
  let dx := p1.x - p2.x
  let dy := p1.y - p2.y
  dx * dx + dy * dy

/-- Source lines 19-43: square distance from a point to a segment.  The pair
`xy` holds the mutable locals `x`, `y` after the guarded block. -/
def getSqSegDist (p p1 p2 : Point α) : α :=
  let x := p1.x
  let y := p1.y
  let dx := p2.x - x
  let dy := p2.y - y
  let xy : α × α :=
    if dx ≠ 0 ∨ dy ≠ 0 then
      let t := ((p.x - x) * dx + (p.y - y) * dy) / (dx * dx + dy * dy)
      if t > 1 then (p2.x, p2.y)
      else if t > 0 then (x + dx * t, y + dy * t)
      else (x, y)
    else (x, y)
  let dx := p.x - xy.1
  let dy := p.y - xy.2
  dx * dx + dy * dy

/-- Source lines 19-43 once more, with the division of line 27 made partial:
the result is `none` when the divisor `dx * dx + dy * dy` is zero at the
moment the division is evaluated. -/
def getSqSegDistChecked (p p1 p2 : Point α) : Option α :=
  let x := p1.x
  let y := p1.y
  let dx := p2.x - x
  let dy := p2.y - y
  let xy : Option (α × α) :=
    if dx ≠ 0 ∨ dy ≠ 0 then
      if dx * dx + dy * dy = 0 then none
      else
        let t := ((p.x - x) * dx + (p.y - y) * dy) / (dx * dx + dy * dy)
        if t > 1 then some (p2.x, p2.y)
        else if t > 0 then some (x + dx * t, y + dy * t)
        else some (x, y)
    else some (x, y)
  match xy with
  | none => none
  | some xy =>
    let dx := p.x - xy.1
    let dy := p.y - xy.2
    some (dx * dx + dy * dy)

/-- The copying loop `for (i = 0; i < points.size(); i++) simplified.push_back(points[i])`
(source lines 52-53 and 117-118); the first argument counts the iterations left. -/
def copyLoop (points : List (Point α)) :
    Nat → Nat → List (Point α) → Option (List (Point α))
  | 0, _, simplified => some simplified
  | n + 1, i, simplified =>
    match points[i]? with
    | some p => copyLoop points n (i + 1) (simplified ++ [p])
    | none => none

/-- The loop of source lines 63-67: `points[i]` is pushed when its square
distance to `points[i-1]` exceeds `sqrTolerance`.  Returns the final `i` and
the output vector. -/
def radialLoop (points : List (Point α)) (sqrTolerance : α) :
    Nat → Nat → List (Point α) → Option (Nat × List (Point α))
  | 0, i, simplified => some (i, simplified)
  | n + 1, i, simplified =>
    match points[i]?, points[i - 1]? with
    | some pi, some pj =>
      radialLoop points sqrTolerance n (i + 1)
        (if getSqDist pi pj > sqrTolerance then simplified ++ [pi] else simplified)
    | _, _ => none

/-- Source lines 46-72: distance-based simplification.  Note that the
parameter is squared inside (line 61). -/
def simplifyRadialDist (points : List (Point α)) (tolerance : α) :
    Option (List (Point α)) :=
  if points.length ≤ 2 then
    copyLoop points points.length 0 []
  else
    match points[0]? with
    | none => none
    | some p0 =>
      let sqrTolerance := tolerance * tolerance
      match radialLoop points sqrTolerance (points.length - 1 - 1) 1 [p0] with
      | none => none
      | some (i, simplified) =>
        match points[i]? with
        | none => none
        | some pl => some (simplified ++ [pl])

/-- The scan of source lines 79-85 over `i = first+1 .. last-1`, carrying
`index` and `maxSqDist`; a later point replaces the current maximum only when
strictly farther from the segment. -/
def dpScan (points : List (Point α)) (first last : Nat) :
    Nat → Nat → Nat → α → Option (Nat × α)
  | 0, _, index, maxSqDist => some (index, maxSqDist)
  | n + 1, i, index, maxSqDist =>
    match points[i]?, points[first]?, points[last]? with
    | some p, some pf, some pl =>
      let sqDist := getSqSegDist p pf pl
      if sqDist > maxSqDist then dpScan points first last n (i + 1) i sqDist
      else dpScan points first last n (i + 1) index maxSqDist
    | _, _, _ => none

/-- The scan either leaves its state untouched or ends on an index it
visited, with a strictly larger maximum. -/
theorem dpScan_range (points : List (Point α)) (first last : Nat) :
    ∀ (n i index : Nat) (m : α) (index' : Nat) (m' : α),
      dpScan points first last n i index m = some (index', m') →
      (index' = index ∧ m' = m) ∨ (m < m' ∧ i ≤ index' ∧ index' < i + n) := by
  intro n
  induction n with
  | zero =>
    intro i index m index' m' h
    simp only [dpScan, Option.some.injEq, Prod.mk.injEq] at h
    exact Or.inl ⟨h.1.symm, h.2.symm⟩
  | succ n ih =>
    intro i index m index' m' h
    unfold dpScan at h
    split at h
    · rename_i p pf pl hp hf hl
      by_cases hgt : getSqSegDist p pf pl > m
      · simp only [hgt, if_true] at h
        rcases ih _ _ _ _ _ h with ⟨h1, h2⟩ | ⟨h1, h2, h3⟩
        · right
          subst h1 h2
          exact ⟨hgt, le_refl _, by omega⟩
        · right
          exact ⟨lt_trans hgt h1, by omega, by omega⟩
      · simp only [hgt, if_false] at h
        rcases ih _ _ _ _ _ h with ⟨h1, h2⟩ | ⟨h1, h2, h3⟩
        · exact Or.inl ⟨h1, h2⟩
        · right
          exact ⟨h1, by omega, by omega⟩
    · exact absurd h (by simp)

/-- Source lines 74-96: one Douglas-Peucker step on the index range
`[first, last]`, appending the kept interior points to `out` in index order.
The recursion is the source's; it is well founded because a maximum above the
tolerance is attained strictly between `first` and `last`. -/
def simplifyDPStep (points : List (Point α)) (first last : Nat) (sqTolerance : α)
    (out : List (Point α)) : Option (List (Point α)) :=
  match hscan : dpScan points first last (last - (first + 1)) (first + 1) 0 sqTolerance with
  | none => none
  | some (index, maxSqDist) =>
    if hgt : maxSqDist > sqTolerance then
      match (if index - first > 1 then simplifyDPStep points first index sqTolerance out
             else some out) with
      | none => none
      | some out1 =>
        match points[index]? with
        | none => none
        | some p =>
          if last - index > 1 then simplifyDPStep points index last sqTolerance (out1 ++ [p])
          else some (out1 ++ [p])
    else some out
termination_by last - first
decreasing_by
  all_goals simp_wf
  · rcases dpScan_range points first last _ _ _ _ _ _ hscan with ⟨_, h2⟩ | ⟨_, h2, h3⟩
    · exact absurd hgt (by rw [h2]; exact lt_irrefl _)
    · omega
  · rcases dpScan_range points first last _ _ _ _ _ _ hscan with ⟨_, h2⟩ | ⟨_, h2, h3⟩
    · exact absurd hgt (by rw [h2]; exact lt_irrefl _)
    · omega

/-- The step `simplifyDPStep` (source lines 74-96) with a budget on the depth
of its recursion: the call itself uses one unit, every nested call gets the
rest, and a call without budget fails. -/
def simplifyDPStepDepth (points : List (Point α)) (sqTolerance : α) :
    Nat → Nat → Nat → List (Point α) → Option (List (Point α))
  | 0, _, _, _ => none
  | depth + 1, first, last, out =>
    match dpScan points first last (last - (first + 1)) (first + 1) 0 sqTolerance with
    | none => none
    | some (index, maxSqDist) =>
      if maxSqDist > sqTolerance then
        match (if index - first > 1 then
            simplifyDPStepDepth points sqTolerance depth first index out
          else some out) with
        | none => none
        | some out1 =>
          match points[index]? with
          | none => none
          | some p =>
            if last - index > 1 then
              simplifyDPStepDepth points sqTolerance depth index last (out1 ++ [p])
            else some (out1 ++ [p])
      else some out

/-- Source lines 99-109: simplification using the Ramer-Douglas-Peucker
algorithm. -/
def simplifyDouglasPeucker (points : List (Point α)) (sqTolerance : α) :
    Option (List (Point α)) :=
  match points[0]? with
  | none => none
  | some p0 =>
    let last := points.length - 1
    match simplifyDPStep points 0 last sqTolerance [p0] with
    | none => none
    | some simplified =>
      match points[last]? with
      | none => none
      | some pl => some (simplified ++ [pl])

/-- Source lines 112-128: both algorithms combined.  The source's default
arguments are `tolerance = 1` and `highestQuality = true`. -/
def simplify (points : List (Point α)) (tolerance : α) (highestQuality : Bool) :
    Option (List (Point α)) :=
  if points.length ≤ 2 then
    copyLoop points points.length 0 []
  else
    let sqTolerance := tolerance * tolerance
    match (if highestQuality then some points else simplifyRadialDist points sqTolerance) with
    | none => none
    | some result => simplifyDouglasPeucker result sqTolerance

/-- The point of the segment `[p1, p2]` at parameter `s`. -/
def segPoint (p1 p2 : Point α) (s : α) : Point α :=
  ⟨p1.x + s * (p2.x - p1.x), p1.y + s * (p2.y - p1.y)⟩

/-- Every vector element strictly between the indices `a` and `b` lies within
the squared tolerance `tol` of the segment from element `a` to element `b`. -/
def withinTol (points : List (Point α)) (tol : α) (a b : Nat) : Prop :=
  ∀ i p pa pb, a < i → i < b → points[i]? = some p → points[a]? = some pa →
    points[b]? = some pb → getSqSegDist p pa pb ≤ tol

/-- All points of the polyline lie on one straight line: for any three of
them the cross product of the two difference vectors vanishes. -/
def collinear (points : List (Point α)) : Prop :=
  ∀ p ∈ points, ∀ q ∈ points, ∀ r ∈ points,
    (q.x - p.x) * (r.y - p.y) = (q.y - p.y) * (r.x - p.x)

theorem getSqDist_nonneg (p q : Point α) : 0 ≤ getSqDist p q :=
  add_nonneg (mul_self_nonneg _) (mul_self_nonneg _)

theorem getSqSegDist_degenerate (p p1 : Point α) :
    getSqSegDist p p1 p1 = getSqDist p p1 := by
  simp [getSqSegDist, getSqDist]

theorem getSqSegDist_le (p p1 p2 : Point α) (s : α) (h0 : 0 ≤ s) (h1 : s ≤ 1) :
    getSqSegDist p p1 p2 ≤ getSqDist p (segPoint p1 p2 s) := by
  unfold getSqSegDist getSqDist segPoint
  simp only
  by_cases hd : p2.x - p1.x ≠ 0 ∨ p2.y - p1.y ≠ 0
  · rw [if_pos hd]
    have hD : 0 < (p2.x - p1.x) * (p2.x - p1.x) + (p2.y - p1.y) * (p2.y - p1.y) := by
      rcases hd with h | h
      · have := mul_self_pos.mpr h
        nlinarith [mul_self_nonneg (p2.y - p1.y)]
      · have := mul_self_pos.mpr h
        nlinarith [mul_self_nonneg (p2.x - p1.x)]
    generalize hdx : p2.x - p1.x = dx at *
    generalize hdy : p2.y - p1.y = dy at *
    generalize hwx : p.x - p1.x = wx at *
    generalize hwy : p.y - p1.y = wy at *
    generalize hD' : dx * dx + dy * dy = D at *
    generalize ht : (wx * dx + wy * dy) / D = t at *
    have hw : wx * dx + wy * dy = t * D := by
      rw [← ht]; field_simp
    have e1 : p.x - (p1.x + s * dx) = wx - s * dx := by rw [← hwx]; ring
    have e2 : p.y - (p1.y + s * dy) = wy - s * dy := by rw [← hwy]; ring
    rw [e1, e2]
    by_cases ht1 : t > 1
    · rw [if_pos ht1]
      simp only
      have e3 : p.x - p2.x = wx - dx := by rw [← hwx, ← hdx]; ring
      have e4 : p.y - p2.y = wy - dy := by rw [← hwy, ← hdy]; ring
      rw [e3, e4]
      have key : (wx - s * dx) * (wx - s * dx) + (wy - s * dy) * (wy - s * dy)
          - ((wx - dx) * (wx - dx) + (wy - dy) * (wy - dy)) = D * ((1 - s) * (2 * t - 1 - s)) := by
        rw [← hD']
        have : wx * dx + wy * dy = t * (dx * dx + dy * dy) := by rw [hw, hD']
        linear_combination (2 - 2 * s) * this
      have : 0 ≤ D * ((1 - s) * (2 * t - 1 - s)) :=
        mul_nonneg hD.le (mul_nonneg (by linarith) (by linarith))
      linarith
    · rw [if_neg ht1]
      by_cases ht0 : t > 0
      · rw [if_pos ht0]
        simp only
        have e3 : p.x - (p1.x + dx * t) = wx - dx * t := by rw [← hwx]; ring
        have e4 : p.y - (p1.y + dy * t) = wy - dy * t := by rw [← hwy]; ring
        rw [e3, e4]
        have key : (wx - s * dx) * (wx - s * dx) + (wy - s * dy) * (wy - s * dy)
            - ((wx - dx * t) * (wx - dx * t) + (wy - dy * t) * (wy - dy * t))
            = D * ((s - t) * (s - t)) := by
          rw [← hD']
          have : wx * dx + wy * dy = t * (dx * dx + dy * dy) := by rw [hw, hD']
          linear_combination (2 * t - 2 * s) * this
        have : 0 ≤ D * ((s - t) * (s - t)) := mul_nonneg hD.le (mul_self_nonneg _)
        linarith
      · rw [if_neg ht0]
        simp only
        rw [hwx, hwy]
        have key : (wx - s * dx) * (wx - s * dx) + (wy - s * dy) * (wy - s * dy)
            - (wx * wx + wy * wy) = D * (s * (s - 2 * t)) := by
          rw [← hD']
          have : wx * dx + wy * dy = t * (dx * dx + dy * dy) := by rw [hw, hD']
          linear_combination (- 2 * s) * this
        have : 0 ≤ D * (s * (s - 2 * t)) :=
          mul_nonneg hD.le (mul_nonneg h0 (by linarith))
        linarith
  · rw [if_neg hd]
    push_neg at hd
    simp only [hd.1, hd.2, mul_zero, add_zero]
    exact le_refl _

theorem getSqSegDist_attained (p p1 p2 : Point α) :
    ∃ s : α, 0 ≤ s ∧ s ≤ 1 ∧ getSqSegDist p p1 p2 = getSqDist p (segPoint p1 p2 s) := by
  unfold getSqSegDist getSqDist segPoint
  simp only
  by_cases hd : p2.x - p1.x ≠ 0 ∨ p2.y - p1.y ≠ 0
  · rw [if_pos hd]
    by_cases ht1 : ((p.x - p1.x) * (p2.x - p1.x) + (p.y - p1.y) * (p2.y - p1.y)) /
        ((p2.x - p1.x) * (p2.x - p1.x) + (p2.y - p1.y) * (p2.y - p1.y)) > 1
    · refine ⟨1, zero_le_one, le_refl _, ?_⟩
      rw [if_pos ht1]
      simp only
      ring
    · rw [if_neg ht1]
      by_cases ht0 : ((p.x - p1.x) * (p2.x - p1.x) + (p.y - p1.y) * (p2.y - p1.y)) /
          ((p2.x - p1.x) * (p2.x - p1.x) + (p2.y - p1.y) * (p2.y - p1.y)) > 0
      · refine ⟨_, le_of_lt ht0, not_lt.mp ht1, ?_⟩
        rw [if_pos ht0]
        simp only
        ring
      · refine ⟨0, le_refl _, zero_le_one, ?_⟩
        rw [if_neg ht0]
        simp only
        ring
  · refine ⟨0, le_refl _, zero_le_one, ?_⟩
    rw [if_neg hd]
    simp only
    ring

/-- The slice of `n` elements of `l` starting at index `i`, one element longer. -/
theorem take_drop_succ {β : Type} (l : List β) (i n : Nat) (h : i < l.length) :
    (l.drop i).take (n + 1) = l[i] :: (l.drop (i + 1)).take n := by
  rw [List.drop_eq_getElem_cons h, List.take_succ_cons]

theorem copyLoop_eq (points : List (Point α)) :
    ∀ (n i : Nat) (out : List (Point α)), i + n ≤ points.length →
      copyLoop points n i out = some (out ++ (points.drop i).take n) := by
  intro n
  induction n with
  | zero => intro i out _; simp [copyLoop]
  | succ n ih =>
    intro i out h
    have hi : i < points.length := by omega
    rw [copyLoop, List.getElem?_eq_getElem hi]
    simp only
    rw [ih (i + 1) _ (by omega), take_drop_succ _ _ _ hi, List.append_assoc]
    rfl

theorem copyLoop_all (points : List (Point α)) :
    copyLoop points points.length 0 [] = some points := by
  rw [copyLoop_eq _ _ _ _ (by omega)]
  simp

theorem radialLoop_eq (points : List (Point α)) (tol : α) :
    ∀ (n i : Nat) (out : List (Point α)), 1 ≤ i → i + n ≤ points.length →
      ∃ kept, radialLoop points tol n i out = some (i + n, out ++ kept) ∧
        kept.Sublist ((points.drop i).take n) := by
  intro n
  induction n with
  | zero => intro i out _ _; exact ⟨[], by simp [radialLoop], by simp⟩
  | succ n ih =>
    intro i out h1 h
    have hi : i < points.length := by omega
    have hj : i - 1 < points.length := by omega
    rw [radialLoop, List.getElem?_eq_getElem hi, List.getElem?_eq_getElem hj]
    simp only
    rw [take_drop_succ _ _ _ hi]
    by_cases hgt : getSqDist points[i] points[i - 1] > tol
    · obtain ⟨kept, hk, hs⟩ := ih (i + 1) (out ++ [points[i]]) (by omega) (by omega)
      refine ⟨points[i] :: kept, ?_, hs.cons₂ _⟩
      rw [if_pos hgt, hk]
      simp [Nat.add_assoc, Nat.add_comm 1 n]
    · obtain ⟨kept, hk, hs⟩ := ih (i + 1) out (by omega) (by omega)
      refine ⟨kept, ?_, hs.cons _⟩
      rw [if_neg hgt, hk]
      simp [Nat.add_assoc, Nat.add_comm 1 n]

theorem simplifyDPStep_unfold (points : List (Point α)) (first last : Nat) (tol : α)
    (out : List (Point α)) :
    simplifyDPStep points first last tol out =
      match dpScan points first last (last - (first + 1)) (first + 1) 0 tol with
      | none => none
      | some (index, m) =>
        if m > tol then
          match (if index - first > 1 then simplifyDPStep points first index tol out
                 else some out) with
          | none => none
          | some out1 =>
            match points[index]? with
            | none => none
            | some p =>
              if last - index > 1 then simplifyDPStep points index last tol (out1 ++ [p])
              else some (out1 ++ [p])
        else some out := by
  rw [simplifyDPStep]
  split
  · rename_i h
    rw [h]
  · rename_i index m h
    rw [h]
    simp only [dite_eq_ite]

/-- On a range inside the vector the scan returns; its maximum dominates the
start value and every visited point, and when it moved, it is attained at the
returned index and at no earlier visited index. -/
theorem dpScan_spec (points : List (Point α)) (first last : Nat) (pf pl : Point α)
    (hf : points[first]? = some pf) (hl : points[last]? = some pl) :
    ∀ (n i index : Nat) (m : α), i + n ≤ points.length →
      ∃ index' m', dpScan points first last n i index m = some (index', m') ∧
        m ≤ m' ∧
        (∀ j p, i ≤ j → j < i + n → points[j]? = some p → getSqSegDist p pf pl ≤ m') ∧
        ((index' = index ∧ m' = m) ∨
          (m < m' ∧ i ≤ index' ∧ index' < i + n ∧
            (∃ p, points[index']? = some p ∧ getSqSegDist p pf pl = m') ∧
            ∀ j q, i ≤ j → j < index' → points[j]? = some q → getSqSegDist q pf pl < m')) := by
  intro n
  induction n with
  | zero =>
    intro i index m _
    exact ⟨index, m, rfl, le_refl _, fun j p h1 h2 => by omega, Or.inl ⟨rfl, rfl⟩⟩
  | succ n ih =>
    intro i index m h
    have hi : i < points.length := by omega
    have hpi : points[i]? = some points[i] := List.getElem?_eq_getElem hi
    rw [dpScan, hpi, hf, hl]
    simp only
    by_cases hgt : getSqSegDist points[i] pf pl > m
    · rw [if_pos hgt]
      obtain ⟨index', m', he, hle, hall, hc⟩ :=
        ih (i + 1) i (getSqSegDist points[i] pf pl) (by omega)
      refine ⟨index', m', he, le_trans (le_of_lt hgt) hle, ?_, Or.inr ?_⟩
      · intro j p h1 h2 hp
        rcases Nat.eq_or_lt_of_le h1 with h1 | h1
        · subst h1
          rw [hpi] at hp
          cases hp
          exact hle
        · exact hall j p h1 (by omega) hp
      · rcases hc with ⟨h1, h2⟩ | ⟨h1, h2, h3, h4, h5⟩
        · subst h1 h2
          exact ⟨hgt, le_refl _, by omega, ⟨_, hpi, rfl⟩, fun j q h1 h2 => by omega⟩
        · refine ⟨lt_trans hgt h1, by omega, by omega, h4, ?_⟩
          intro j q hj1 hj2 hq
          rcases Nat.eq_or_lt_of_le hj1 with hj1 | hj1
          · subst hj1
            rw [hpi] at hq
            cases hq
            exact h1
          · exact h5 j q hj1 hj2 hq
    · rw [if_neg hgt]
      obtain ⟨index', m', he, hle, hall, hc⟩ := ih (i + 1) index m (by omega)
      refine ⟨index', m', he, hle, ?_, ?_⟩
      · intro j p h1 h2 hp
        rcases Nat.eq_or_lt_of_le h1 with h1 | h1
        · subst h1
          rw [hpi] at hp
          cases hp
          exact le_trans (not_lt.mp hgt) hle
        · exact hall j p h1 (by omega) hp
      · rcases hc with ⟨h1, h2⟩ | ⟨h1, h2, h3, h4, h5⟩
        · exact Or.inl ⟨h1, h2⟩
        · refine Or.inr ⟨h1, by omega, by omega, h4, ?_⟩
          intro j q hj1 hj2 hq
          rcases Nat.eq_or_lt_of_le hj1 with hj1 | hj1
          · subst hj1
            rw [hpi] at hq
            cases hq
            exact lt_of_le_of_lt (not_lt.mp hgt) h1
          · exact h5 j q hj1 hj2 hq

/-- The step on a range inside the vector returns `out` extended by the points
at a strictly increasing list of interior indices; between two neighbouring
kept indices (the range ends included) every point is within tolerance, and
nothing is kept exactly when the whole range is within tolerance. -/
theorem simplifyDPStep_spec (points : List (Point α)) (tol : α) :
    ∀ (k first last : Nat) (out : List (Point α)), last - first ≤ k → first < last →
      last < points.length →
      ∃ (idxs : List Nat) (ext : List (Point α)),
        simplifyDPStep points first last tol out = some (out ++ ext) ∧
        idxs.map (fun i => points[i]?) = ext.map some ∧
        List.Chain' (fun a b => a < b ∧ withinTol points tol a b) (first :: idxs ++ [last]) ∧
        (idxs = [] ↔ withinTol points tol first last) := by
  intro k
  induction k with
  | zero => intro first last out h1 h2 _; omega
  | succ k ih =>
    intro first last out hk hfl hlast
    have hf : points[first]? = some points[first] := List.getElem?_eq_getElem (by omega)
    have hl : points[last]? = some points[last] := List.getElem?_eq_getElem hlast
    obtain ⟨index, m, hscan, hle, hall, hc⟩ :=
      dpScan_spec points first last _ _ hf hl (last - (first + 1)) (first + 1) 0 tol (by omega)
    rw [simplifyDPStep_unfold, hscan]
    simp only
    by_cases hgt : m > tol
    · rw [if_pos hgt]
      rcases hc with ⟨_, h2⟩ | ⟨_, h2, h3, ⟨p, hp, hpm⟩, _⟩
      · exact absurd hgt (by rw [h2]; exact lt_irrefl _)
      have sub : ∀ (a b : Nat) (o : List (Point α)), a < b → b - a ≤ k → b < points.length →
          ∃ (idxs : List Nat) (ext : List (Point α)),
            (if b - a > 1 then simplifyDPStep points a b tol o else some o) = some (o ++ ext) ∧
            idxs.map (fun i => points[i]?) = ext.map some ∧
            List.Chain' (fun a b => a < b ∧ withinTol points tol a b) (a :: idxs ++ [b]) := by
        intro a b o hab hbk hb
        by_cases hgap : b - a > 1
        · obtain ⟨idxs, ext, e1, e2, e3, _⟩ := ih a b o hbk hab hb
          exact ⟨idxs, ext, by rw [if_pos hgap, e1], e2, e3⟩
        · refine ⟨[], [], by rw [if_neg hgap]; simp, rfl, ?_⟩
          simp only [List.nil_append, List.cons_append, List.chain'_cons, List.chain'_singleton,
            and_true]
          exact ⟨hab, fun i _ _ _ h1 h2 => by omega⟩
      obtain ⟨L, eL, hL1, hL2, hL3⟩ := sub first index out (by omega) (by omega) (by omega)
      obtain ⟨R, eR, hR1, hR2, hR3⟩ :=
        sub index last (out ++ eL ++ [p]) (by omega) (by omega) hlast
      refine ⟨L ++ index :: R, eL ++ p :: eR, ?_, ?_, ?_, ?_⟩
      · rw [hL1]
        simp only
        rw [hp]
        simp only
        rw [hR1]
        simp
      · simp only [List.map_append, List.map_cons, hL2, hR2, hp]
      · have : first :: (L ++ index :: R) ++ [last] = (first :: L) ++ index :: (R ++ [last]) := by
          simp
        rw [this, List.chain'_split]
        exact ⟨by simpa using hL3, by simpa using hR3⟩
      · constructor
        · intro h
          simp at h
        · intro h
          have := h index p _ _ (by omega) (by omega) hp hf hl
          rw [hpm] at this
          exact absurd hgt (not_lt.mpr this)
    · rw [if_neg hgt]
      have hw : withinTol points tol first last := by
        intro i q pa pb h1 h2 hq ha hb
        rw [hf] at ha
        rw [hl] at hb
        cases ha
        cases hb
        exact le_trans (hall i q (by omega) (by omega) hq) (not_lt.mp hgt)
      refine ⟨[], [], by simp, rfl, ?_, ?_⟩
      · simp only [List.nil_append, List.cons_append, List.chain'_cons, List.chain'_singleton,
          and_true]
        exact ⟨hfl, hw⟩
      · exact ⟨fun _ => hw, fun _ => rfl⟩

/-- Looking a list up at strictly increasing positions gives a sublist. -/
theorem sublist_of_lookup {β : Type} :
    ∀ (l : List β) (k : Nat) (idxs : List Nat) (ext : List β),
      List.Pairwise (· < ·) idxs → (∀ i ∈ idxs, k ≤ i) →
      idxs.map (fun i => l[i - k]?) = ext.map some → ext.Sublist l := by
  intro l
  induction l with
  | nil =>
    intro k idxs ext _ _ h
    cases idxs with
    | nil =>
      cases ext with
      | nil => exact List.Sublist.slnil
      | cons e es => simp at h
    | cons i is =>
      cases ext with
      | nil => simp at h
      | cons e es => simp at h
  | cons p ps ih =>
    intro k idxs ext hs hk h
    have shift : ∀ j, k + 1 ≤ j → (p :: ps)[j - k]? = ps[j - (k + 1)]? := by
      intro j hj
      have : j - k = (j - (k + 1)) + 1 := by omega
      rw [this, List.getElem?_cons_succ]
    cases idxs with
    | nil =>
      cases ext with
      | nil => exact List.nil_sublist _
      | cons e es => simp at h
    | cons i is =>
      cases ext with
      | nil => simp at h
      | cons e es =>
        simp only [List.map_cons, List.cons.injEq] at h
        obtain ⟨h1, h2⟩ := h
        rw [List.pairwise_cons] at hs
        have hki : k ≤ i := hk i (List.mem_cons_self _ _)
        rcases Nat.eq_or_lt_of_le hki with hki | hki
        · subst hki
          simp only [Nat.sub_self, List.getElem?_cons_zero, Option.some.injEq] at h1
          subst h1
          refine List.Sublist.cons₂ _ (ih (k + 1) is es hs.2 (fun j hj => hs.1 j hj) ?_)
          rw [← h2]
          exact List.map_congr_left (fun j hj => (shift j (hs.1 j hj)).symm)
        · refine List.Sublist.cons _ (ih (k + 1) (i :: is) (e :: es) (List.pairwise_cons.mpr hs)
            ?_ ?_)
          · intro j hj
            rcases List.mem_cons.mp hj with hj | hj
            · omega
            · have := hs.1 j hj
              omega
          · simp only [List.map_cons, List.cons.injEq]
            refine ⟨by rw [← h1, shift i hki], ?_⟩
            rw [← h2]
            refine List.map_congr_left (fun j hj => (shift j ?_).symm)
            have := hs.1 j hj
            omega

/-- On at least two points the refiner returns the first point, the points at
a strictly increasing list `mid` of interior indices, and the last point;
neighbouring kept indices enclose only points within tolerance. -/
theorem simplifyDouglasPeucker_spec (points : List (Point α)) (tol : α)
    (h : 2 ≤ points.length) :
    ∃ (p0 pl : Point α) (mid : List Nat) (ext : List (Point α)),
      points[0]? = some p0 ∧ points[points.length - 1]? = some pl ∧
      simplifyDouglasPeucker points tol = some (p0 :: ext ++ [pl]) ∧
      mid.map (fun i => points[i]?) = ext.map some ∧
      List.Chain' (fun a b => a < b ∧ withinTol points tol a b)
        (0 :: mid ++ [points.length - 1]) ∧
      (mid = [] ↔ withinTol points tol 0 (points.length - 1)) := by
  have h0 : points[0]? = some points[0] := List.getElem?_eq_getElem (by omega)
  have hl : points[points.length - 1]? = some points[points.length - 1] :=
    List.getElem?_eq_getElem (by omega)
  obtain ⟨mid, ext, e1, e2, e3, e4⟩ :=
    simplifyDPStep_spec points tol (points.length - 1) 0 (points.length - 1) [points[0]]
      (by omega) (by omega) (by omega)
  refine ⟨_, _, mid, ext, h0, hl, ?_, e2, e3, e4⟩
  rw [simplifyDouglasPeucker, h0]
  simp only
  rw [e1]
  simp only
  rw [hl]
  simp

/-- The kept indices of a refiner run are strictly increasing. -/
theorem chain_lt_pairwise (points : List (Point α)) (tol : α) (idxs : List Nat)
    (h : List.Chain' (fun a b => a < b ∧ withinTol points tol a b) idxs) :
    List.Pairwise (· < ·) idxs :=
  List.chain'_iff_pairwise.mp (h.imp (fun _ _ hab => hab.1))

/-- The refiner's result on at least two points is a sublist of its input
that starts with the first and ends with the last input point. -/
theorem simplifyDouglasPeucker_sublist (points : List (Point α)) (tol : α)
    (h : 2 ≤ points.length) :
    ∃ (p0 pl : Point α) (ext : List (Point α)),
      points[0]? = some p0 ∧ points[points.length - 1]? = some pl ∧
      simplifyDouglasPeucker points tol = some (p0 :: ext ++ [pl]) ∧
      (p0 :: ext ++ [pl]).Sublist points := by
  obtain ⟨p0, pl, mid, ext, h0, hl, e1, e2, e3, _⟩ := simplifyDouglasPeucker_spec points tol h
  refine ⟨p0, pl, ext, h0, hl, e1, ?_⟩
  refine sublist_of_lookup points 0 (0 :: mid ++ [points.length - 1]) _
    (chain_lt_pairwise points tol _ e3) (fun _ _ => Nat.zero_le _) ?_
  simp [h0, hl, e2]

/-- On at least three points the radial filter returns the first point, a
sublist of the interior points, and the last point. -/
theorem simplifyRadialDist_spec (points : List (Point α)) (tolerance : α)
    (h : 3 ≤ points.length) :
    ∃ (p0 pl : Point α) (kept : List (Point α)),
      points[0]? = some p0 ∧ points[points.length - 1]? = some pl ∧
      simplifyRadialDist points tolerance = some (p0 :: kept ++ [pl]) ∧
      kept.Sublist ((points.drop 1).take (points.length - 2)) := by
  have h0 : points[0]? = some points[0] := List.getElem?_eq_getElem (by omega)
  have hl : points[points.length - 1]? = some points[points.length - 1] :=
    List.getElem?_eq_getElem (by omega)
  obtain ⟨kept, e1, e2⟩ := radialLoop_eq points (tolerance * tolerance)
    (points.length - 1 - 1) 1 [points[0]] (le_refl _) (by omega)
  refine ⟨_, _, kept, h0, hl, ?_, e2⟩
  have hn : 1 + (points.length - 1 - 1) = points.length - 1 := by omega
  rw [simplifyRadialDist, if_neg (by omega), h0]
  simp only
  rw [e1]
  simp only
  rw [hn, hl]
  simp

/-- A list of at least two elements is its first element, its interior and
its last element. -/
theorem split_ends {β : Type} (l : List β) (p0 pl : β) (h : 2 ≤ l.length)
    (h0 : l[0]? = some p0) (hl : l[l.length - 1]? = some pl) :
    l = p0 :: (l.drop 1).take (l.length - 2) ++ [pl] := by
  apply List.ext_getElem?
  intro i
  rcases Nat.eq_zero_or_pos i with hi | hi
  · subst hi
    simp [h0]
  · obtain ⟨j, rfl⟩ : ∃ j, i = j + 1 := ⟨i - 1, by omega⟩
    rw [List.cons_append, List.getElem?_cons_succ]
    by_cases hj : j < l.length - 2
    · rw [List.getElem?_append_left (by simp; omega), List.getElem?_take_of_lt hj,
        List.getElem?_drop, Nat.add_comm]
    · have hlen : ((l.drop 1).take (l.length - 2)).length = l.length - 2 := by
        simp; omega
      rw [List.getElem?_append_right (by omega), hlen]
      by_cases hj2 : j = l.length - 2
      · subst hj2
        have : l.length - 2 + 1 = l.length - 1 := by omega
        simp [this, hl]
      · have h1 : [pl][j - (l.length - 2)]? = none :=
          List.getElem?_eq_none (by simp only [List.length_singleton]; omega)
        rw [h1, List.getElem?_eq_none (by omega)]

/-- The radial filter's result on at least three points is a sublist of its
input with at least two elements. -/
theorem simplifyRadialDist_sublist (points : List (Point α)) (tolerance : α)
    (h : 3 ≤ points.length) :
    ∃ (p0 pl : Point α) (kept : List (Point α)),
      points[0]? = some p0 ∧ points[points.length - 1]? = some pl ∧
      simplifyRadialDist points tolerance = some (p0 :: kept ++ [pl]) ∧
      (p0 :: kept ++ [pl]).Sublist points := by
  obtain ⟨p0, pl, kept, h0, hl, e1, e2⟩ := simplifyRadialDist_spec points tolerance h
  refine ⟨p0, pl, kept, h0, hl, e1, ?_⟩
  have := split_ends points p0 pl (by omega) h0 hl
  rw [this]
  exact List.Sublist.cons₂ _ (List.Sublist.append e2 (List.Sublist.refl _))

/-- On at least three points `simplify` returns, in either mode, a sublist of
its input that starts with the first and ends with the last input point. -/
theorem simplify_shape (points : List (Point α)) (tolerance : α) (highestQuality : Bool)
    (h : 3 ≤ points.length) :
    ∃ (p0 pl : Point α) (ext : List (Point α)),
      points[0]? = some p0 ∧ points[points.length - 1]? = some pl ∧
      simplify points tolerance highestQuality = some (p0 :: ext ++ [pl]) ∧
      (p0 :: ext ++ [pl]).Sublist points := by
  cases highestQuality with
  | true =>
    obtain ⟨p0, pl, ext, h0, hl, e1, e2⟩ :=
      simplifyDouglasPeucker_sublist points (tolerance * tolerance) (by omega)
    refine ⟨p0, pl, ext, h0, hl, ?_, e2⟩
    rw [simplify, if_neg (by omega)]
    simp only [if_true]
    exact e1
  | false =>
    obtain ⟨p0, pl, kept, h0, hl, r1, r2⟩ :=
      simplifyRadialDist_sublist points (tolerance * tolerance) h
    obtain ⟨q0, ql, ext, g0, gl, e1, e2⟩ :=
      simplifyDouglasPeucker_sublist (p0 :: kept ++ [pl]) (tolerance * tolerance)
        (by simp)
    have hq0 : q0 = p0 := by
      simp at g0
      exact g0.symm
    have hql : ql = pl := by
      have hlen : (p0 :: kept ++ [pl]).length - 1 = (p0 :: kept).length := by simp
      rw [hlen, List.cons_append, ← List.cons_append, List.getElem?_append_right (le_refl _)] at gl
      simp at gl
      exact gl.symm
    subst hq0 hql
    refine ⟨q0, ql, ext, h0, hl, ?_, e2.trans r2⟩
    rw [simplify, if_neg (by omega)]
    simp only [Bool.false_eq_true, if_false]
    rw [r1]
    exact e1

/-- On at most two points `simplify` copies its input. -/
theorem simplify_small (points : List (Point α)) (tolerance : α) (highestQuality : Bool)
    (h : points.length ≤ 2) :
    simplify points tolerance highestQuality = some points := by
  rw [simplify, if_pos h, copyLoop_all]

/-- In either mode `simplify` returns a sublist of its input. -/
theorem simplify_sublist_aux (points : List (Point α)) (tolerance : α)
    (highestQuality : Bool) :
    ∃ out, simplify points tolerance highestQuality = some out ∧ out.Sublist points := by
  by_cases h : points.length ≤ 2
  · exact ⟨points, simplify_small points tolerance highestQuality h, List.Sublist.refl _⟩
  · obtain ⟨p0, pl, ext, _, _, e1, e2⟩ :=
      simplify_shape points tolerance highestQuality (by omega)
    exact ⟨_, e1, e2⟩

/-- C1: for every non-empty polyline, every tolerance and both values of
`highestQuality`, `simplify` returns a polyline whose first element is the
input's first element and whose last element is the input's last element. -/
theorem simplify_keeps_endpoints (points : List (Point α)) (tolerance : α)
    (highestQuality : Bool) (h : points ≠ []) :
    ∃ out first last, simplify points tolerance highestQuality = some out ∧
      points.head? = some first ∧ points.getLast? = some last ∧
      out.head? = some first ∧ out.getLast? = some last := by
  have key : ∃ out, simplify points tolerance highestQuality = some out ∧
      out.head? = points.head? ∧ out.getLast? = points.getLast? := by
    by_cases hlen : points.length ≤ 2
    · exact ⟨points, simplify_small points tolerance highestQuality hlen, rfl, rfl⟩
    · obtain ⟨p0, pl, ext, h0, hl, e1, _⟩ :=
        simplify_shape points tolerance highestQuality (by omega)
      refine ⟨_, e1, ?_, ?_⟩
      · rw [List.head?_eq_getElem? points, h0]
        rfl
      · rw [List.getLast?_eq_getElem? points, hl, List.getLast?_concat]
  obtain ⟨out, e, e1, e2⟩ := key
  have hF : ∃ f, points.head? = some f := by
    cases hq : points.head? with
    | none => exact absurd (List.head?_eq_none_iff.mp hq) h
    | some f => exact ⟨f, rfl⟩
  have hL : ∃ l, points.getLast? = some l := by
    cases hq : points.getLast? with
    | none => exact absurd (List.getLast?_eq_none_iff.mp hq) h
    | some l => exact ⟨l, rfl⟩
  obtain ⟨f, hf⟩ := hF
  obtain ⟨l, hl⟩ := hL
  exact ⟨out, f, l, e, hf, hl, by rw [e1, hf], by rw [e2, hl]⟩

/-- C1 at a concrete non-empty polyline over the rationals. -/
theorem simplify_keeps_endpoints_witness :
    ([⟨0, 0⟩, ⟨1, 5⟩, ⟨2, 0⟩] : List (Point ℚ)) ≠ [] ∧
    ∃ out first last,
      simplify ([⟨0, 0⟩, ⟨1, 5⟩, ⟨2, 0⟩] : List (Point ℚ)) 1 false = some out ∧
      ([⟨0, 0⟩, ⟨1, 5⟩, ⟨2, 0⟩] : List (Point ℚ)).head? = some first ∧
      ([⟨0, 0⟩, ⟨1, 5⟩, ⟨2, 0⟩] : List (Point ℚ)).getLast? = some last ∧
      out.head? = some first ∧ out.getLast? = some last :=
  ⟨by simp, simplify_keeps_endpoints _ _ _ (by simp)⟩

/-- C2: for every polyline, every tolerance and both values of
`highestQuality`, `simplify` returns an order-preserving subsequence of its
input: the output is obtained from the input by deleting elements, so no
point is synthesized, reordered or duplicated. -/
theorem simplify_is_subsequence (points : List (Point α)) (tolerance : α)
    (highestQuality : Bool) :
    ∃ out, simplify points tolerance highestQuality = some out ∧ out.Sublist points :=
  simplify_sublist_aux points tolerance highestQuality

/-- C3: for every polyline, every tolerance and both values of
`highestQuality`, the output of `simplify` is at most as long as its input. -/
theorem simplify_length_le (points : List (Point α)) (tolerance : α)
    (highestQuality : Bool) :
    ∃ out, simplify points tolerance highestQuality = some out ∧
      out.length ≤ points.length := by
  obtain ⟨out, e1, e2⟩ := simplify_sublist_aux points tolerance highestQuality
  exact ⟨out, e1, e2.length_le⟩

/-- C6: for every polyline with at most two points (empty, one point, two
points), every tolerance and both values of `highestQuality`, `simplify`
returns a list equal to its input. -/
theorem simplify_at_most_two (points : List (Point α)) (tolerance : α)
    (highestQuality : Bool) (h : points.length ≤ 2) :
    simplify points tolerance highestQuality = some points :=
  simplify_small points tolerance highestQuality h

/-- C6 at a concrete two-point polyline over the rationals. -/
theorem simplify_at_most_two_witness :
    ([⟨0, 0⟩, ⟨7, 3⟩] : List (Point ℚ)).length ≤ 2 ∧
    simplify ([⟨0, 0⟩, ⟨7, 3⟩] : List (Point ℚ)) 5 false = some [⟨0, 0⟩, ⟨7, 3⟩] :=
  ⟨by simp, simplify_at_most_two _ _ _ (by simp)⟩

/-- C5: over an ordered field, `getSqSegDist p p1 p2` is the squared distance
from `p` to the closed segment `[p1, p2]`: it is at most the squared distance
from `p` to every point `p1 + s * (p2 - p1)` with `0 ≤ s ≤ 1`, it equals that
distance for one such point, and for `p1 = p2` it is `getSqDist p p1`. -/
theorem getSqSegDist_is_segment_distance (p p1 p2 : Point α) :
    (∀ s : α, 0 ≤ s → s ≤ 1 → getSqSegDist p p1 p2 ≤ getSqDist p (segPoint p1 p2 s)) ∧
    (∃ s : α, 0 ≤ s ∧ s ≤ 1 ∧ getSqSegDist p p1 p2 = getSqDist p (segPoint p1 p2 s)) ∧
    (p1 = p2 → getSqSegDist p p1 p2 = getSqDist p p1) :=
  ⟨getSqSegDist_le p p1 p2, getSqSegDist_attained p p1 p2,
    fun h => h ▸ getSqSegDist_degenerate p p1⟩

/-- C4: with `highestQuality = true` and tolerance `t`, the output of
`simplify` consists of the input points at a strictly increasing list `idxs`
of input indices that starts at `0` and ends at the last index, and every
input point dropped between two consecutive kept indices `a < i < b` satisfies
`getSqSegDist points[i] points[a] points[b] ≤ t * t`. -/
theorem simplify_dropped_within_tolerance (points : List (Point α)) (t : α) :
    ∃ (idxs : List Nat) (out : List (Point α)),
      simplify points t true = some out ∧
      idxs.map (fun i => points[i]?) = out.map some ∧
      (points ≠ [] → idxs.head? = some 0 ∧ idxs.getLast? = some (points.length - 1)) ∧
      List.Chain' (fun a b => a < b ∧ withinTol points (t * t) a b) idxs := by
  by_cases hlen : points.length ≤ 2
  · refine ⟨List.range points.length, points, simplify_small points t true hlen, ?_, ?_, ?_⟩
    · apply List.ext_getElem?
      intro i
      by_cases hi : i < points.length
      · simp [List.getElem?_range, hi, List.getElem?_eq_getElem]
      · simp [List.getElem?_eq_none, not_lt.mp hi]
    · intro hne
      match points, hlen, hne with
      | [_], _, _ => exact ⟨rfl, rfl⟩
      | [_, _], _, _ => exact ⟨rfl, rfl⟩
    · match points, hlen with
      | [], _ => exact List.chain'_nil
      | [_], _ => exact List.chain'_singleton _
      | [_, _], _ =>
        show List.Chain' _ [0, 1]
        exact List.chain'_pair.mpr ⟨Nat.zero_lt_one, fun i _ _ _ h1 h2 => by omega⟩
  · obtain ⟨p0, pl, mid, ext, h0, hl, e1, e2, e3, _⟩ :=
      simplifyDouglasPeucker_spec points (t * t) (by omega)
    refine ⟨0 :: mid ++ [points.length - 1], p0 :: ext ++ [pl], ?_, ?_, ?_, e3⟩
    · rw [simplify, if_neg hlen]
      simp only [if_true]
      exact e1
    · simp [h0, hl, e2]
    · intro _
      exact ⟨rfl, List.getLast?_concat _⟩

/-- On three points the high-quality mode keeps the middle point exactly when
it is farther than the tolerance from the segment between the other two. -/
theorem simplify_three (a b c : Point α) (t : α) :
    simplify [a, b, c] t true =
      some (if getSqSegDist b a c > t * t then [a, b, c] else [a, c]) := by
  have hscan : dpScan [a, b, c] 0 2 1 1 0 (t * t) =
      some (if getSqSegDist b a c > t * t then (1, getSqSegDist b a c) else (0, t * t)) := by
    simp only [dpScan, List.getElem?_cons_succ, List.getElem?_cons_zero]
    split_ifs <;> rfl
  have hstep : simplifyDPStep [a, b, c] 0 2 (t * t) [a] =
      some (if getSqSegDist b a c > t * t then [a, b] else [a]) := by
    rw [simplifyDPStep_unfold]
    simp only [Nat.zero_add, Nat.add_one_sub_one, hscan]
    by_cases hgt : getSqSegDist b a c > t * t
    · simp [hgt]
    · simp [hgt]
  simp only [simplify, simplifyDouglasPeucker, List.length_cons, List.length_nil,
    List.getElem?_cons_zero, if_true]
  simp only [Nat.reduceAdd, Nat.reduceLeDiff, if_false, Nat.add_one_sub_one, hstep]
  by_cases hgt : getSqSegDist b a c > t * t
  · simp [hgt]
  · simp [hgt]

/-- The high-quality mode on at least three points, described by the refiner's
index list. -/
theorem simplify_hq_spec (points : List (Point α)) (t : α) (h : 3 ≤ points.length) :
    ∃ (p0 pl : Point α) (mid : List Nat) (ext : List (Point α)),
      points[0]? = some p0 ∧ points[points.length - 1]? = some pl ∧
      simplify points t true = some (p0 :: ext ++ [pl]) ∧
      mid.map (fun i => points[i]?) = ext.map some ∧
      List.Chain' (fun a b => a < b ∧ withinTol points (t * t) a b)
        (0 :: mid ++ [points.length - 1]) ∧
      (mid = [] ↔ withinTol points (t * t) 0 (points.length - 1)) := by
  obtain ⟨p0, pl, mid, ext, h0, hl, e1, e2, e3, e4⟩ :=
    simplifyDouglasPeucker_spec points (t * t) (by omega)
  refine ⟨p0, pl, mid, ext, h0, hl, ?_, e2, e3, e4⟩
  rw [simplify, if_neg (by omega)]
  simp only [if_true]
  exact e1

/-- The high-quality mode collapses a polyline of at least three points to its
two end points when no interior point is farther than the tolerance from the
segment between them. -/
theorem simplify_hq_collapse_aux (points : List (Point α)) (t : α) (p0 pl : Point α)
    (h : 3 ≤ points.length) (h0 : points[0]? = some p0)
    (hl : points[points.length - 1]? = some pl)
    (hall : ∀ i p, 0 < i → i < points.length - 1 → points[i]? = some p →
      getSqSegDist p p0 pl ≤ t * t) :
    simplify points t true = some [p0, pl] := by
  obtain ⟨q0, ql, mid, ext, g0, gl, e1, e2, _, e4⟩ := simplify_hq_spec points t h
  rw [h0] at g0
  rw [hl] at gl
  cases g0
  cases gl
  have hw : withinTol points (t * t) 0 (points.length - 1) := by
    intro i p pa pb h1 h2 hp ha hb
    rw [h0] at ha
    rw [hl] at hb
    cases ha
    cases hb
    exact hall i p h1 h2 hp
  have hmid : mid = [] := e4.mpr hw
  subst hmid
  have hext : ext = [] := by
    cases ext with
    | nil => rfl
    | cons e es => simp at e2
  subst hext
  exact e1

/-- C7: on at least three points and tolerance `t`, `simplify` with
`highestQuality = true` returns exactly `[first, last]` when no interior point
has `getSqSegDist` to the segment `[first, last]` above `t * t`, and otherwise
returns `first`, a non-empty list of interior input points, `last`; on three
points `[a, b, c]` the result is `[a, b, c]` if `getSqSegDist b a c > t * t`
and `[a, c]` otherwise. -/
theorem simplify_hq_collapse_or_keep (points : List (Point α)) (t : α) (p0 pl : Point α)
    (h : 3 ≤ points.length) (h0 : points[0]? = some p0)
    (hl : points[points.length - 1]? = some pl) :
    ((∀ i p, 0 < i → i < points.length - 1 → points[i]? = some p →
        getSqSegDist p p0 pl ≤ t * t) →
      simplify points t true = some [p0, pl]) ∧
    ((∃ i p, 0 < i ∧ i < points.length - 1 ∧ points[i]? = some p ∧
        getSqSegDist p p0 pl > t * t) →
      ∃ mid, mid ≠ [] ∧ simplify points t true = some (p0 :: mid ++ [pl]) ∧
        ∀ q ∈ mid, ∃ i, 0 < i ∧ i < points.length - 1 ∧ points[i]? = some q) ∧
    (∀ a b c : Point α, simplify [a, b, c] t true =
      some (if getSqSegDist b a c > t * t then [a, b, c] else [a, c])) := by
  obtain ⟨q0, ql, mid, ext, g0, gl, e1, e2, e3, e4⟩ := simplify_hq_spec points t h
  rw [h0] at g0
  rw [hl] at gl
  cases g0
  cases gl
  refine ⟨simplify_hq_collapse_aux points t p0 pl h h0 hl, ?_,
    fun a b c => simplify_three a b c t⟩
  · rintro ⟨i, p, h1, h2, hp, hgt⟩
    have hmid : mid ≠ [] := by
      intro hm
      have := e4.mp hm i p _ _ h1 h2 hp h0 hl
      exact absurd hgt (not_lt.mpr this)
    refine ⟨ext, ?_, e1, ?_⟩
    · intro hext
      subst hext
      cases mid with
      | nil => exact hmid rfl
      | cons j js => simp at e2
    · intro q hq
      have hmem : some q ∈ mid.map (fun i => points[i]?) := by
        rw [e2]
        exact List.mem_map_of_mem _ hq
      obtain ⟨j, hj, hjq⟩ := List.mem_map.mp hmem
      have hp := chain_lt_pairwise points (t * t) _ e3
      rw [List.cons_append, List.pairwise_cons, List.pairwise_append] at hp
      refine ⟨j, hp.1 j (List.mem_append_left _ hj), ?_, hjq⟩
      exact hp.2.2.2 j hj _ (List.mem_singleton_self _)

/-- C7 at the polyline `[(0,0), (1,5), (2,0)]` with tolerance `1`: the middle
point deviates by more than the tolerance and all three points are kept. -/
theorem simplify_hq_collapse_or_keep_witness :
    3 ≤ ([⟨0, 0⟩, ⟨1, 5⟩, ⟨2, 0⟩] : List (Point ℚ)).length ∧
    simplify ([⟨0, 0⟩, ⟨1, 5⟩, ⟨2, 0⟩] : List (Point ℚ)) 1 true =
      some [⟨0, 0⟩, ⟨1, 5⟩, ⟨2, 0⟩] ∧
    simplify ([⟨0, 0⟩, ⟨1, 1 / 10⟩, ⟨2, 0⟩] : List (Point ℚ)) 1 true =
      some [⟨0, 0⟩, ⟨2, 0⟩] := by
  have key := simplify_hq_collapse_or_keep ([⟨0, 0⟩, ⟨1, 5⟩, ⟨2, 0⟩] : List (Point ℚ)) 1
    ⟨0, 0⟩ ⟨2, 0⟩ (by simp) rfl rfl
  refine ⟨by simp, ?_, ?_⟩
  · rw [key.2.2]
    norm_num [getSqSegDist]
  · rw [key.2.2]
    norm_num [getSqSegDist]

/-- C8 as stated fails: the three points `(0,0), (3,0), (1,0)` lie on the line
`y = 0`, the tolerance `1` is non-negative, and the high-quality mode keeps the
interior point `(3,0)`, whose distance to the segment from `(0,0)` to `(1,0)`
is `2`; the result is not `[first, last]`. -/
theorem collinear_interior_point_kept :
    collinear ([⟨0, 0⟩, ⟨3, 0⟩, ⟨1, 0⟩] : List (Point ℚ)) ∧ (0 : ℚ) ≤ 1 ∧
    3 ≤ ([⟨0, 0⟩, ⟨3, 0⟩, ⟨1, 0⟩] : List (Point ℚ)).length ∧
    simplify ([⟨0, 0⟩, ⟨3, 0⟩, ⟨1, 0⟩] : List (Point ℚ)) 1 true =
      some [⟨0, 0⟩, ⟨3, 0⟩, ⟨1, 0⟩] ∧
    simplify ([⟨0, 0⟩, ⟨3, 0⟩, ⟨1, 0⟩] : List (Point ℚ)) 1 true ≠ some [⟨0, 0⟩, ⟨1, 0⟩] := by
  have hs : simplify ([⟨0, 0⟩, ⟨3, 0⟩, ⟨1, 0⟩] : List (Point ℚ)) 1 true =
      some [⟨0, 0⟩, ⟨3, 0⟩, ⟨1, 0⟩] := by
    rw [simplify_three]
    norm_num [getSqSegDist]
  refine ⟨?_, zero_le_one, by simp, hs, ?_⟩
  · intro p hp q hq r hr
    simp only [List.mem_cons, List.mem_singleton, List.not_mem_nil, or_false] at hp hq hr
    rcases hp with rfl | rfl | rfl <;> rcases hq with rfl | rfl | rfl <;>
      rcases hr with rfl | rfl | rfl <;> norm_num
  · rw [hs]
    simp

/-- C8 (amended): in exact arithmetic (`Distance` an ordered field, so that
the division and the products of `getSqSegDist` are exact), on at least three
points whose interior points all lie on the closed segment between the first
and the last point (each is `first + s * (last - first)` for some
`0 ≤ s ≤ 1`), `simplify` with `highestQuality = true` removes every interior
point and returns exactly `[first, last]`, for every tolerance, zero
included. -/
theorem simplify_hq_points_on_segment (points : List (Point α)) (t : α) (p0 pl : Point α)
    (h : 3 ≤ points.length) (h0 : points[0]? = some p0)
    (hl : points[points.length - 1]? = some pl)
    (hseg : ∀ i p, 0 < i → i < points.length - 1 → points[i]? = some p →
      ∃ s : α, 0 ≤ s ∧ s ≤ 1 ∧ p = segPoint p0 pl s) :
    simplify points t true = some [p0, pl] := by
  refine simplify_hq_collapse_aux points t p0 pl h h0 hl ?_
  intro i p h1 h2 hp
  obtain ⟨s, hs0, hs1, hps⟩ := hseg i p h1 h2 hp
  have hle := getSqSegDist_le p p0 pl s hs0 hs1
  have hz : getSqDist p (segPoint p0 pl s) = 0 := by
    rw [← hps]
    simp [getSqDist]
  rw [hz] at hle
  exact le_trans hle (mul_self_nonneg t)

/-- C8 (amended) at the specification's example, over the rationals:
`(0,0), (1,0), (2,0), (3,0)` with tolerance `1` gives `(0,0), (3,0)`. -/
theorem simplify_hq_points_on_segment_witness :
    3 ≤ ([⟨0, 0⟩, ⟨1, 0⟩, ⟨2, 0⟩, ⟨3, 0⟩] : List (Point ℚ)).length ∧
    simplify ([⟨0, 0⟩, ⟨1, 0⟩, ⟨2, 0⟩, ⟨3, 0⟩] : List (Point ℚ)) 1 true =
      some [⟨0, 0⟩, ⟨3, 0⟩] := by
  refine ⟨by simp, simplify_hq_points_on_segment _ 1 ⟨0, 0⟩ ⟨3, 0⟩ (by simp) rfl rfl ?_⟩
  intro i p h1 h2 hp
  simp only [List.length_cons, List.length_nil] at h2
  have hi : i = 1 ∨ i = 2 := by omega
  rcases hi with rfl | rfl
  · simp only [List.getElem?_cons_succ, List.getElem?_cons_zero, Option.some.injEq] at hp
    subst hp
    exact ⟨1 / 3, by norm_num, by norm_num, by norm_num [segPoint]⟩
  · simp only [List.getElem?_cons_succ, List.getElem?_cons_zero, Option.some.injEq] at hp
    subst hp
    exact ⟨2 / 3, by norm_num, by norm_num, by norm_num [segPoint]⟩

/-- The refiner returns a two-point polyline unchanged. -/
theorem simplifyDouglasPeucker_two (a b : Point α) (tol : α) :
    simplifyDouglasPeucker [a, b] tol = some [a, b] := by
  have hstep : simplifyDPStep [a, b] 0 1 tol [a] = some [a] := by
    rw [simplifyDPStep_unfold]
    simp [dpScan]
  simp only [simplifyDouglasPeucker, List.length_cons, List.length_nil,
    List.getElem?_cons_zero]
  simp only [Nat.reduceAdd, Nat.add_one_sub_one, hstep]
  simp

/-- C9 as stated fails: on `(2,1), (0,1), (1,2), (0,2), (2,0)` with tolerance
`1` the mode `highestQuality = false` returns four points and the mode
`highestQuality = true` returns three.  The radial filter drops `(0,2)`, the
point the full refinement splits at; without it the refinement splits at
`(0,1)` and then has to keep `(1,2)` as well. -/
theorem fast_mode_longer_than_hq :
    (0 : ℚ) ≤ 1 ∧
    simplify ([⟨2, 1⟩, ⟨0, 1⟩, ⟨1, 2⟩, ⟨0, 2⟩, ⟨2, 0⟩] : List (Point ℚ)) 1 false =
      some [⟨2, 1⟩, ⟨0, 1⟩, ⟨1, 2⟩, ⟨2, 0⟩] ∧
    simplify ([⟨2, 1⟩, ⟨0, 1⟩, ⟨1, 2⟩, ⟨0, 2⟩, ⟨2, 0⟩] : List (Point ℚ)) 1 true =
      some [⟨2, 1⟩, ⟨0, 2⟩, ⟨2, 0⟩] ∧
    ([⟨2, 1⟩, ⟨0, 2⟩, ⟨2, 0⟩] : List (Point ℚ)).length <
      ([⟨2, 1⟩, ⟨0, 1⟩, ⟨1, 2⟩, ⟨2, 0⟩] : List (Point ℚ)).length := by
  refine ⟨zero_le_one, ?_, ?_, by simp⟩
  · have hr : simplifyRadialDist
        ([⟨2, 1⟩, ⟨0, 1⟩, ⟨1, 2⟩, ⟨0, 2⟩, ⟨2, 0⟩] : List (Point ℚ)) (1 * 1) =
        some [⟨2, 1⟩, ⟨0, 1⟩, ⟨1, 2⟩, ⟨2, 0⟩] := by
      norm_num [simplifyRadialDist, radialLoop, getSqDist]
    simp only [simplify, List.length_cons, List.length_nil, hr]
    norm_num [simplifyDouglasPeucker]
    rw [simplifyDPStep_unfold]
    norm_num [dpScan, getSqSegDist]
    rw [simplifyDPStep_unfold]
    norm_num [dpScan, getSqSegDist]
  · simp only [simplify, simplifyDouglasPeucker, List.length_cons, List.length_nil,
      List.getElem?_cons_zero, if_true]
    norm_num
    rw [simplifyDPStep_unfold]
    norm_num [dpScan, getSqSegDist]
    rw [simplifyDPStep_unfold]
    norm_num [dpScan, getSqSegDist]

/-- C9 (amended): for every polyline and tolerance `t`, the radial filter
returns a polyline `filtered` no longer than the input, and `simplify` with
`highestQuality = false` returns what `simplify` with `highestQuality = true`
returns on `filtered`, a polyline no longer than `filtered`. -/
theorem simplify_fast_is_hq_of_filtered (points : List (Point α)) (t : α) :
    ∃ filtered out, simplifyRadialDist points (t * t) = some filtered ∧
      simplify points t false = some out ∧
      simplify filtered t true = some out ∧
      out.length ≤ filtered.length ∧ filtered.length ≤ points.length := by
  by_cases hlen : points.length ≤ 2
  · refine ⟨points, points, ?_, simplify_small points t false hlen,
      simplify_small points t true hlen, le_refl _, le_refl _⟩
    rw [simplifyRadialDist, if_pos hlen, copyLoop_all]
  · obtain ⟨p0, pl, kept, _, _, r1, r2⟩ :=
      simplifyRadialDist_sublist points (t * t) (by omega)
    have hfast : simplify points t false =
        simplifyDouglasPeucker (p0 :: kept ++ [pl]) (t * t) := by
      rw [simplify, if_neg hlen]
      simp only [Bool.false_eq_true, if_false]
      rw [r1]
    obtain ⟨out, e1, e2⟩ := simplify_sublist_aux (p0 :: kept ++ [pl]) t true
    refine ⟨p0 :: kept ++ [pl], out, r1, ?_, e1, e2.length_le, r2.length_le⟩
    rw [hfast, ← e1]
    cases kept with
    | nil =>
      rw [simplify_small _ t true (by simp)]
      exact simplifyDouglasPeucker_two p0 pl (t * t)
    | cons k ks =>
      rw [simplify, if_neg (by simp)]
      simp only [if_true]

/-- C10, the code at a concrete input: on `(0,0), (1,0), (2,0), (3,0)` with
parameter `1` (threshold `1 * 1`) the radial filter returns `(0,0), (3,0)`.
When the loop reaches index `2` its output holds only `(0,0)`, so `(0,0)` is
the previously retained point, and `(2,0)` is at squared distance `4 > 1` from
it; the code compares `(2,0)` with its input predecessor `(1,0)` and drops it. -/
theorem radial_filter_compares_with_input_predecessor :
    simplifyRadialDist ([⟨0, 0⟩, ⟨1, 0⟩, ⟨2, 0⟩, ⟨3, 0⟩] : List (Point ℚ)) 1 =
      some [⟨0, 0⟩, ⟨3, 0⟩] ∧
    radialLoop ([⟨0, 0⟩, ⟨1, 0⟩, ⟨2, 0⟩, ⟨3, 0⟩] : List (Point ℚ)) (1 * 1) 1 1 [⟨0, 0⟩] =
      some (2, [⟨0, 0⟩]) ∧
    getSqDist (⟨2, 0⟩ : Point ℚ) ⟨0, 0⟩ > 1 * 1 ∧
    ¬ getSqDist (⟨2, 0⟩ : Point ℚ) ⟨1, 0⟩ > 1 * 1 := by
  refine ⟨?_, ?_, ?_, ?_⟩
  · norm_num [simplifyRadialDist, radialLoop, getSqDist]
  · norm_num [radialLoop, getSqDist]
  · norm_num [getSqDist]
  · norm_num [getSqDist]

/-- C11, the code at a concrete input: `simplify` hands `sqTolerance = t * t`
to `simplifyRadialDist`, which squares its parameter again (source lines 61
and 124), so the radial filter compares against `(t * t) * (t * t)`.  On
`(0,0), (0,3), (10,0)` with `t = 2` the interior point is at squared distance
`9 > 2 * 2` from its comparison point `(0,0)`, yet `9 ≤ 16` and the filter drops
it: the fast mode returns `(0,0), (10,0)`, while the Douglas-Peucker stage
alone keeps the point. -/
theorem radial_threshold_is_squared_twice :
    simplifyRadialDist ([⟨0, 0⟩, ⟨0, 3⟩, ⟨10, 0⟩] : List (Point ℚ)) (2 * 2) =
      some [⟨0, 0⟩, ⟨10, 0⟩] ∧
    simplify ([⟨0, 0⟩, ⟨0, 3⟩, ⟨10, 0⟩] : List (Point ℚ)) 2 false =
      some [⟨0, 0⟩, ⟨10, 0⟩] ∧
    getSqDist (⟨0, 3⟩ : Point ℚ) ⟨0, 0⟩ > 2 * 2 ∧
    ¬ getSqDist (⟨0, 3⟩ : Point ℚ) ⟨0, 0⟩ > (2 * 2) * (2 * 2) ∧
    simplify ([⟨0, 0⟩, ⟨0, 3⟩, ⟨10, 0⟩] : List (Point ℚ)) 2 true =
      some [⟨0, 0⟩, ⟨0, 3⟩, ⟨10, 0⟩] := by
  have hr : simplifyRadialDist ([⟨0, 0⟩, ⟨0, 3⟩, ⟨10, 0⟩] : List (Point ℚ)) (2 * 2) =
      some [⟨0, 0⟩, ⟨10, 0⟩] := by
    norm_num [simplifyRadialDist, radialLoop, getSqDist]
  refine ⟨hr, ?_, ?_, ?_, ?_⟩
  · simp only [simplify, List.length_cons, List.length_nil, hr]
    norm_num
    exact simplifyDouglasPeucker_two _ _ _
  · norm_num [getSqDist]
  · norm_num [getSqDist]
  · rw [simplify_three]
    norm_num [getSqSegDist]

/-- C12: for every polyline, every tolerance `t` and both values of
`highestQuality`, `simplify` with tolerance `-t` returns what it returns with
tolerance `t`. -/
theorem simplify_neg_tolerance (points : List (Point α)) (t : α) (highestQuality : Bool) :
    simplify points (-t) highestQuality = simplify points t highestQuality := by
  simp only [simplify, neg_mul_neg]

/-- C13: `simplify` is not idempotent in general.  On `(1,4), (0,3), (4,2),
(2,1)` with tolerance `2 ≥ 0` and `highestQuality = false` one run returns
`(1,4), (4,2), (2,1)` and a second run on that result returns `(1,4), (2,1)`. -/
theorem simplify_not_idempotent :
    ∃ (points : List (Point ℚ)) (t : ℚ) (highestQuality : Bool), 0 ≤ t ∧
      ∃ once twice, simplify points t highestQuality = some once ∧
        simplify once t highestQuality = some twice ∧ twice ≠ once := by
  refine ⟨[⟨1, 4⟩, ⟨0, 3⟩, ⟨4, 2⟩, ⟨2, 1⟩], 2, false, by norm_num,
    [⟨1, 4⟩, ⟨4, 2⟩, ⟨2, 1⟩], [⟨1, 4⟩, ⟨2, 1⟩], ?_, ?_, by simp⟩
  · have hr : simplifyRadialDist ([⟨1, 4⟩, ⟨0, 3⟩, ⟨4, 2⟩, ⟨2, 1⟩] : List (Point ℚ)) (2 * 2) =
        some [⟨1, 4⟩, ⟨4, 2⟩, ⟨2, 1⟩] := by
      norm_num [simplifyRadialDist, radialLoop, getSqDist]
    have hd := simplify_three (⟨1, 4⟩ : Point ℚ) ⟨4, 2⟩ ⟨2, 1⟩ 2
    simp only [simplify, List.length_cons, List.length_nil, hr]
    simp only [simplify, List.length_cons, List.length_nil] at hd
    norm_num at hd ⊢
    rw [hd]
    norm_num [getSqSegDist]
  · have hr : simplifyRadialDist ([⟨1, 4⟩, ⟨4, 2⟩, ⟨2, 1⟩] : List (Point ℚ)) (2 * 2) =
        some [⟨1, 4⟩, ⟨2, 1⟩] := by
      norm_num [simplifyRadialDist, radialLoop, getSqDist]
    simp only [simplify, List.length_cons, List.length_nil, hr]
    norm_num
    exact simplifyDouglasPeucker_two _ _ _

/-- C20: called directly on a single-point polyline `[p]`, the refiner returns
the two-element list `[p, p]` for every `sqTolerance`, which is longer than its
input; `simplify` never passes such a polyline on, it returns `[p]` itself. -/
theorem simplifyDouglasPeucker_single (p : Point α) (sqTolerance t : α)
    (highestQuality : Bool) :
    simplifyDouglasPeucker [p] sqTolerance = some [p, p] ∧
    ([p] : List (Point α)).length < [p, p].length ∧
    simplify [p] t highestQuality = some [p] := by
  refine ⟨?_, by simp, simplify_small _ _ _ (by simp)⟩
  have hstep : simplifyDPStep [p] 0 0 sqTolerance [p] = some [p] := by
    rw [simplifyDPStep_unfold]
    simp [dpScan]
  simp only [simplifyDouglasPeucker, List.length_cons, List.length_nil,
    List.getElem?_cons_zero]
  simp only [Nat.zero_add, Nat.sub_self, hstep, List.getElem?_cons_zero]
  simp

/-- Under the guard of source line 26 the divisor of line 27 is positive. -/
theorem divisor_pos_aux (dx dy : α) (h : dx ≠ 0 ∨ dy ≠ 0) : 0 < dx * dx + dy * dy := by
  rcases h with h | h
  · have := mul_self_pos.mpr h
    nlinarith [mul_self_nonneg dy]
  · have := mul_self_pos.mpr h
    nlinarith [mul_self_nonneg dx]

/-- C14: `getSqSegDist` never divides by zero.  The version of the function
whose division fails on a zero divisor always returns, with the value of
`getSqSegDist`; whenever the guard `dx != 0 || dy != 0` holds the divisor
`dx * dx + dy * dy` is strictly positive; and on a zero-length segment the
result is `getSqDist p p1`. -/
theorem getSqSegDist_no_division_by_zero (p p1 p2 : Point α) :
    getSqSegDistChecked p p1 p2 = some (getSqSegDist p p1 p2) ∧
    ((p2.x - p1.x ≠ 0 ∨ p2.y - p1.y ≠ 0) →
      0 < (p2.x - p1.x) * (p2.x - p1.x) + (p2.y - p1.y) * (p2.y - p1.y)) ∧
    getSqSegDistChecked p p1 p1 = some (getSqDist p p1) ∧
    getSqSegDist p p1 p1 = getSqDist p p1 := by
  refine ⟨?_, divisor_pos_aux _ _, ?_, getSqSegDist_degenerate p p1⟩
  · unfold getSqSegDistChecked getSqSegDist
    simp only
    by_cases hd : p2.x - p1.x ≠ 0 ∨ p2.y - p1.y ≠ 0
    · have hne := ne_of_gt (divisor_pos_aux _ _ hd)
      rw [if_pos hd, if_pos hd, if_neg hne]
      split_ifs <;> rfl
    · rw [if_neg hd, if_neg hd]
  · simp [getSqSegDistChecked, getSqDist]

/-- A scan over the interior of `[first, last]` whose maximum ends above the
tolerance it started from ends on an index strictly between `first` and
`last`. -/
theorem dpScan_split_aux (points : List (Point α)) (first last : Nat) (tol : α)
    (index : Nat) (m : α)
    (h : dpScan points first last (last - (first + 1)) (first + 1) 0 tol = some (index, m))
    (hgt : m > tol) : first < index ∧ index < last := by
  rcases dpScan_range points first last _ _ _ _ _ _ h with ⟨_, h2⟩ | ⟨_, h2, h3⟩
  · exact absurd hgt (by rw [h2]; exact lt_irrefl _)
  · omega

/-- The step returns on every range `first ≤ last` inside the vector. -/
theorem simplifyDPStep_returns_aux (points : List (Point α)) (first last : Nat) (tol : α)
    (out : List (Point α)) (h : first ≤ last) (hl : last < points.length) :
    ∃ ext, simplifyDPStep points first last tol out = some (out ++ ext) := by
  rcases Nat.eq_or_lt_of_le h with h | h
  · subst h
    refine ⟨[], ?_⟩
    rw [simplifyDPStep_unfold]
    have : first - (first + 1) = 0 := by omega
    simp [this, dpScan]
  · obtain ⟨_, ext, e, _⟩ := simplifyDPStep_spec points tol (last - first) first last out
      (le_refl _) h hl
    exact ⟨ext, e⟩

/-- C15: `simplify` yields a defined result on every input, for every
tolerance and both flag values (in the embedding every vector read is checked,
so a result means that every index evaluated was in bounds).  In particular
on at least three points the radial filter returns at least two points, on
which the refiner returns; the refiner returns on the at least three points
of the high-quality mode; and a split index used by `simplifyDPStep` lies
strictly between `first` and `last`. -/
theorem simplify_total (points : List (Point α)) (t : α) (highestQuality : Bool) :
    (∃ out, simplify points t highestQuality = some out) ∧
    (3 ≤ points.length → ∃ r, simplifyRadialDist points (t * t) = some r ∧ 2 ≤ r.length ∧
      ∃ out, simplifyDouglasPeucker r (t * t) = some out) ∧
    (3 ≤ points.length → ∃ out, simplifyDouglasPeucker points (t * t) = some out) ∧
    (∀ (first last index : Nat) (tol m : α),
      dpScan points first last (last - (first + 1)) (first + 1) 0 tol = some (index, m) →
      m > tol → first < index ∧ index < last) := by
  refine ⟨?_, ?_, ?_, ?_⟩
  · obtain ⟨out, e, _⟩ := simplify_sublist_aux points t highestQuality
    exact ⟨out, e⟩
  · intro h
    obtain ⟨p0, pl, kept, _, _, r1, _⟩ := simplifyRadialDist_sublist points (t * t) h
    obtain ⟨_, _, ext, _, _, e1, _⟩ :=
      simplifyDouglasPeucker_sublist (p0 :: kept ++ [pl]) (t * t) (by simp)
    exact ⟨_, r1, by simp, _, e1⟩
  · intro h
    obtain ⟨_, _, ext, _, _, e1, _⟩ :=
      simplifyDouglasPeucker_sublist points (t * t) (by omega)
    exact ⟨_, e1⟩
  · intro first last index tol m h hgt
    exact dpScan_split_aux points first last tol index m h hgt

/-- A depth budget of `last - first` (at least one, for the call itself) is
enough: the budgeted step computes what `simplifyDPStep` computes. -/
theorem simplifyDPStepDepth_eq_aux (points : List (Point α)) (tol : α) :
    ∀ (depth first last : Nat) (out : List (Point α)), 1 ≤ depth → last - first ≤ depth →
      simplifyDPStepDepth points tol depth first last out =
        simplifyDPStep points first last tol out := by
  intro depth
  induction depth with
  | zero => intro first last out h; omega
  | succ d ih =>
    intro first last out _ hd
    rw [simplifyDPStepDepth, simplifyDPStep_unfold]
    cases hscan : dpScan points first last (last - (first + 1)) (first + 1) 0 tol with
    | none => rfl
    | some r =>
      obtain ⟨index, m⟩ := r
      simp only
      by_cases hgt : m > tol
      · obtain ⟨h1, h2⟩ := dpScan_split_aux points first last tol index m hscan hgt
        have hL : (if index - first > 1 then simplifyDPStepDepth points tol d first index out
            else some out) =
            (if index - first > 1 then simplifyDPStep points first index tol out
            else some out) := by
          by_cases hg : index - first > 1
          · rw [if_pos hg, if_pos hg, ih first index out (by omega) (by omega)]
          · rw [if_neg hg, if_neg hg]
        rw [if_pos hgt, if_pos hgt, hL]
        cases (if index - first > 1 then simplifyDPStep points first index tol out
            else some out) with
        | none => rfl
        | some out1 =>
          simp only
          cases points[index]? with
          | none => rfl
          | some p =>
            simp only
            by_cases hg : last - index > 1
            · rw [if_pos hg, if_pos hg, ih index last _ (by omega) (by omega)]
            · rw [if_neg hg, if_neg hg]
      · rw [if_neg hgt, if_neg hgt]

/-- C16: `simplifyDPStep` terminates on every range `first ≤ last` of the
vector: it returns a result; each recursive call is made on `[first, index]`
or `[index, last]` with `first < index < last`, a strictly smaller range; and
a recursion depth of `last - first` (at least one, for the call itself) is
never exceeded: with that depth budget the step computes the same result. -/
theorem simplifyDPStep_terminates (points : List (Point α)) (first last : Nat) (tol : α)
    (out : List (Point α)) (h : first ≤ last) (hl : last < points.length) :
    (∃ ext, simplifyDPStep points first last tol out = some (out ++ ext)) ∧
    (∀ (index : Nat) (m : α),
      dpScan points first last (last - (first + 1)) (first + 1) 0 tol = some (index, m) →
      m > tol → first < index ∧ index < last ∧
        index - first < last - first ∧ last - index < last - first) ∧
    (∀ depth, 1 ≤ depth → last - first ≤ depth →
      simplifyDPStepDepth points tol depth first last out =
        simplifyDPStep points first last tol out) := by
  refine ⟨simplifyDPStep_returns_aux points first last tol out h hl, ?_,
    fun depth h1 h2 => simplifyDPStepDepth_eq_aux points tol depth first last out h1 h2⟩
  intro index m hs hgt
  obtain ⟨h1, h2⟩ := dpScan_split_aux points first last tol index m hs hgt
  exact ⟨h1, h2, by omega, by omega⟩

/-- C16 at the range `[0, 2]` of a three-point polyline over the rationals. -/
theorem simplifyDPStep_terminates_witness :
    (0 : Nat) ≤ 2 ∧ 2 < ([⟨0, 0⟩, ⟨1, 5⟩, ⟨2, 0⟩] : List (Point ℚ)).length ∧
    ∃ ext, simplifyDPStep ([⟨0, 0⟩, ⟨1, 5⟩, ⟨2, 0⟩] : List (Point ℚ)) 0 2 1 [⟨0, 0⟩] =
      some ([⟨0, 0⟩] ++ ext) :=
  ⟨by decide, by simp,
    (simplifyDPStep_terminates ([⟨0, 0⟩, ⟨1, 5⟩, ⟨2, 0⟩] : List (Point ℚ)) 0 2 1 [⟨0, 0⟩]
      (by decide) (by simp)).1⟩

/-- A guarded recursive call of the step, as made at source lines 88-89 and
93-94, returns on every range inside the vector. -/
theorem guarded_step_returns_aux (points : List (Point α)) (a b : Nat) (tol : α)
    (o : List (Point α)) (h : a ≤ b) (hb : b < points.length) :
    ∃ ext, (if b - a > 1 then simplifyDPStep points a b tol o else some o) = some (o ++ ext) := by
  by_cases hg : b - a > 1
  · rw [if_pos hg]
    exact simplifyDPStep_returns_aux points a b tol o h hb
  · exact ⟨[], by rw [if_neg hg]; simp⟩

/-- C17: tie-breaking in `simplifyDPStep`.  On a range `[first, last]` in which
some interior point has squared segment distance to `(points[first],
points[last])` above `sqTolerance`, the step keeps, between its two recursive
calls, the point at an index `index` strictly inside the range whose distance
is the maximum over the range and strictly larger than the distance of every
interior point before it: the smallest index attaining the maximum. -/
theorem simplifyDPStep_anchor_first_maximum (points : List (Point α)) (first last : Nat)
    (tol : α) (out : List (Point α)) (pf pl : Point α) (hl : last < points.length)
    (hf : points[first]? = some pf) (hpl : points[last]? = some pl)
    (hex : ∃ i q, first < i ∧ i < last ∧ points[i]? = some q ∧ getSqSegDist q pf pl > tol) :
    ∃ (index : Nat) (p : Point α) (l r : List (Point α)),
      first < index ∧ index < last ∧ points[index]? = some p ∧
      (∀ j q, first < j → j < last → points[j]? = some q →
        getSqSegDist q pf pl ≤ getSqSegDist p pf pl) ∧
      (∀ j q, first < j → j < index → points[j]? = some q →
        getSqSegDist q pf pl < getSqSegDist p pf pl) ∧
      (if index - first > 1 then simplifyDPStep points first index tol out else some out) =
        some l ∧
      (if last - index > 1 then simplifyDPStep points index last tol (l ++ [p])
        else some (l ++ [p])) = some (l ++ p :: r) ∧
      simplifyDPStep points first last tol out = some (l ++ p :: r) := by
  obtain ⟨i, q, hi1, hi2, hq, hqgt⟩ := hex
  obtain ⟨index, m, hscan, _, hall, hc⟩ :=
    dpScan_spec points first last pf pl hf hpl (last - (first + 1)) (first + 1) 0 tol (by omega)
  have hm : m > tol := lt_of_lt_of_le hqgt (hall i q (by omega) (by omega) hq)
  rcases hc with ⟨_, h2⟩ | ⟨_, h2, h3, ⟨p, hp, hpm⟩, h5⟩
  · exact absurd hm (by rw [h2]; exact lt_irrefl _)
  obtain ⟨L, hL⟩ := guarded_step_returns_aux points first index tol out (by omega) (by omega)
  obtain ⟨R, hR⟩ := guarded_step_returns_aux points index last tol (out ++ L ++ [p])
    (by omega) hl
  have hR' : (if last - index > 1 then simplifyDPStep points index last tol (out ++ L ++ [p])
      else some (out ++ L ++ [p])) = some (out ++ L ++ p :: R) := by
    rw [hR]
    simp
  refine ⟨index, p, out ++ L, R, by omega, by omega, hp, ?_, ?_, hL, hR', ?_⟩
  · intro j q' hj1 hj2 hq'
    rw [hpm]
    exact hall j q' (by omega) (by omega) hq'
  · intro j q' hj1 hj2 hq'
    rw [hpm]
    exact h5 j q' (by omega) hj2 hq'
  · rw [simplifyDPStep_unfold, hscan]
    simp only
    rw [if_pos hm, hL]
    simp only
    rw [hp]
    simp only
    exact hR'

/-- C17 on the symmetric polyline `(0,0), (1,1), (2,1), (3,0)` with squared
tolerance `0`: both interior points are at distance `1` from the chord. -/
theorem simplifyDPStep_anchor_first_maximum_witness :
    3 < ([⟨0, 0⟩, ⟨1, 1⟩, ⟨2, 1⟩, ⟨3, 0⟩] : List (Point ℚ)).length ∧
    (∃ i q, 0 < i ∧ i < 3 ∧ ([⟨0, 0⟩, ⟨1, 1⟩, ⟨2, 1⟩, ⟨3, 0⟩] : List (Point ℚ))[i]? = some q ∧
      getSqSegDist q ⟨0, 0⟩ ⟨3, 0⟩ > 0) ∧
    ∃ (index : Nat) (p : Point ℚ) (l r : List (Point ℚ)),
      0 < index ∧ index < 3 ∧
      ([⟨0, 0⟩, ⟨1, 1⟩, ⟨2, 1⟩, ⟨3, 0⟩] : List (Point ℚ))[index]? = some p ∧
      (∀ j q, 0 < j → j < 3 →
        ([⟨0, 0⟩, ⟨1, 1⟩, ⟨2, 1⟩, ⟨3, 0⟩] : List (Point ℚ))[j]? = some q →
        getSqSegDist q ⟨0, 0⟩ ⟨3, 0⟩ ≤ getSqSegDist p ⟨0, 0⟩ ⟨3, 0⟩) ∧
      (∀ j q, 0 < j → j < index →
        ([⟨0, 0⟩, ⟨1, 1⟩, ⟨2, 1⟩, ⟨3, 0⟩] : List (Point ℚ))[j]? = some q →
        getSqSegDist q ⟨0, 0⟩ ⟨3, 0⟩ < getSqSegDist p ⟨0, 0⟩ ⟨3, 0⟩) ∧
      (if index - 0 > 1 then
          simplifyDPStep ([⟨0, 0⟩, ⟨1, 1⟩, ⟨2, 1⟩, ⟨3, 0⟩] : List (Point ℚ)) 0 index 0 [⟨0, 0⟩]
        else some [⟨0, 0⟩]) = some l ∧
      (if 3 - index > 1 then
          simplifyDPStep ([⟨0, 0⟩, ⟨1, 1⟩, ⟨2, 1⟩, ⟨3, 0⟩] : List (Point ℚ)) index 3 0 (l ++ [p])
        else some (l ++ [p])) = some (l ++ p :: r) ∧
      simplifyDPStep ([⟨0, 0⟩, ⟨1, 1⟩, ⟨2, 1⟩, ⟨3, 0⟩] : List (Point ℚ)) 0 3 0 [⟨0, 0⟩] =
        some (l ++ p :: r) := by
  have hex : ∃ i q, 0 < i ∧ i < 3 ∧
      ([⟨0, 0⟩, ⟨1, 1⟩, ⟨2, 1⟩, ⟨3, 0⟩] : List (Point ℚ))[i]? = some q ∧
      getSqSegDist q ⟨0, 0⟩ ⟨3, 0⟩ > 0 :=
    ⟨1, ⟨1, 1⟩, by decide, by decide, rfl, by norm_num [getSqSegDist]⟩
  exact ⟨by simp, hex,
    simplifyDPStep_anchor_first_maximum _ 0 3 0 [⟨0, 0⟩] ⟨0, 0⟩ ⟨3, 0⟩ (by simp) rfl rfl hex⟩

/-- The scan is determined by the first position of the maximum: started below
`m`, on a range inside the vector where `m` bounds every visited point, is
attained at position `c` and is attained at no earlier visited position, it
ends on `(c, m)`. -/
theorem dpScan_first_max_aux (points : List (Point α)) (first last : Nat) (pf pl : Point α)
    (hf : points[first]? = some pf) (hl : points[last]? = some pl)
    (n i index0 : Nat) (m0 : α) (hb : i + n ≤ points.length)
    (c : Nat) (pc : Point α) (hc1 : i ≤ c) (hc2 : c < i + n) (hpc : points[c]? = some pc)
    (hm0 : m0 < getSqSegDist pc pf pl)
    (hall : ∀ j q, i ≤ j → j < i + n → points[j]? = some q →
      getSqSegDist q pf pl ≤ getSqSegDist pc pf pl)
    (hbefore : ∀ j q, i ≤ j → j < c → points[j]? = some q →
      getSqSegDist q pf pl < getSqSegDist pc pf pl) :
    dpScan points first last n i index0 m0 = some (c, getSqSegDist pc pf pl) := by
  obtain ⟨index, m, hscan, _, hall', hcase⟩ :=
    dpScan_spec points first last pf pl hf hl n i index0 m0 hb
  have hcm : getSqSegDist pc pf pl ≤ m := hall' c pc hc1 hc2 hpc
  rcases hcase with ⟨_, h2⟩ | ⟨_, h2, h3, ⟨p, hp, hpm⟩, h5⟩
  · rw [h2] at hcm
    exact absurd hm0 (not_lt.mpr hcm)
  · have hmc : m ≤ getSqSegDist pc pf pl := by
      rw [← hpm]
      exact hall index p h2 h3 hp
    have hmeq : m = getSqSegDist pc pf pl := le_antisymm hmc hcm
    have hidx : index = c := by
      rcases Nat.lt_trichotomy index c with hlt | heq | hgt
      · have := hbefore index p h2 hlt hp
        rw [hpm, hmeq] at this
        exact absurd this (lt_irrefl _)
      · exact heq
      · have := h5 c pc hc1 hgt hpc
        rw [hmeq] at this
        exact absurd this (lt_irrefl _)
    rw [hscan, hidx, hmeq]

/-- A scan that ends above a tolerance ends the same way from every smaller
tolerance: the split does not depend on the tolerance. -/
theorem dpScan_smaller_tol_aux (points : List (Point α)) (first last : Nat)
    (hf : first < points.length) (hl : last < points.length)
    (n i : Nat) (t1 t2 : α) (h12 : t1 ≤ t2) (hb : i + n ≤ points.length)
    (index : Nat) (m : α) (h2 : dpScan points first last n i 0 t2 = some (index, m))
    (hgt : m > t2) : dpScan points first last n i 0 t1 = some (index, m) := by
  have hf' : points[first]? = some points[first] := List.getElem?_eq_getElem hf
  have hl' : points[last]? = some points[last] := List.getElem?_eq_getElem hl
  obtain ⟨index', m', hscan, _, hall, hcase⟩ :=
    dpScan_spec points first last _ _ hf' hl' n i 0 t2 hb
  rw [h2] at hscan
  cases hscan
  rcases hcase with ⟨_, e⟩ | ⟨_, c1, c2, ⟨p, hp, hpm⟩, c5⟩
  · exact absurd hgt (by rw [e]; exact lt_irrefl _)
  · subst hpm
    exact dpScan_first_max_aux points first last _ _ hf' hl' n i 0 t1 hb index p c1 c2 hp
      (lt_of_le_of_lt h12 hgt) hall c5

/-- Raising the squared tolerance only removes points from what a step keeps. -/
theorem simplifyDPStep_mono_aux (points : List (Point α)) (t1 t2 : α) (h12 : t1 ≤ t2) :
    ∀ (k first last : Nat) (out1 out2 : List (Point α)), last - first ≤ k → first < last →
      last < points.length →
      ∃ e1 e2, simplifyDPStep points first last t1 out1 = some (out1 ++ e1) ∧
        simplifyDPStep points first last t2 out2 = some (out2 ++ e2) ∧ e2.Sublist e1 := by
  intro k
  induction k with
  | zero => intro first last _ _ h1 h2 _; omega
  | succ k ih =>
    intro first last out1 out2 hk hfl hlast
    obtain ⟨e1, he1⟩ := simplifyDPStep_returns_aux points first last t1 out1 (by omega) hlast
    have hf : points[first]? = some points[first] := List.getElem?_eq_getElem (by omega)
    have hl : points[last]? = some points[last] := List.getElem?_eq_getElem hlast
    obtain ⟨index, m, hscan, _, _, hc⟩ :=
      dpScan_spec points first last _ _ hf hl (last - (first + 1)) (first + 1) 0 t2 (by omega)
    by_cases hgt : m > t2
    · have hscan1 := dpScan_smaller_tol_aux points first last (by omega) hlast _ _ t1 t2 h12
        (by omega) index m hscan hgt
      obtain ⟨h1, h2⟩ := dpScan_split_aux points first last t2 index m hscan hgt
      have hp : points[index]? = some points[index] := List.getElem?_eq_getElem (by omega)
      have sub : ∀ (a b : Nat) (o1 o2 : List (Point α)), a < b → b - a ≤ k →
          b < points.length →
          ∃ f1 f2, (if b - a > 1 then simplifyDPStep points a b t1 o1 else some o1) =
              some (o1 ++ f1) ∧
            (if b - a > 1 then simplifyDPStep points a b t2 o2 else some o2) =
              some (o2 ++ f2) ∧ f2.Sublist f1 := by
        intro a b o1 o2 hab hbk hb
        by_cases hg : b - a > 1
        · obtain ⟨f1, f2, g1, g2, g3⟩ := ih a b o1 o2 hbk hab hb
          exact ⟨f1, f2, by rw [if_pos hg, g1], by rw [if_pos hg, g2], g3⟩
        · exact ⟨[], [], by rw [if_neg hg]; simp, by rw [if_neg hg]; simp,
            List.Sublist.refl _⟩
      obtain ⟨L1, L2, hL1, hL2, hLs⟩ := sub first index out1 out2 h1 (by omega) (by omega)
      obtain ⟨R1, R2, hR1, hR2, hRs⟩ := sub index last (out1 ++ L1 ++ [points[index]])
        (out2 ++ L2 ++ [points[index]]) h2 (by omega) hlast
      refine ⟨L1 ++ points[index] :: R1, L2 ++ points[index] :: R2, ?_, ?_,
        List.Sublist.append hLs (List.Sublist.cons₂ _ hRs)⟩
      · rw [simplifyDPStep_unfold, hscan1]
        simp only
        rw [if_pos (lt_of_le_of_lt h12 hgt), hL1]
        simp only
        rw [hp]
        simp only
        rw [hR1]
        simp
      · rw [simplifyDPStep_unfold, hscan]
        simp only
        rw [if_pos hgt, hL2]
        simp only
        rw [hp]
        simp only
        rw [hR2]
        simp
    · refine ⟨e1, [], he1, ?_, List.nil_sublist _⟩
      rw [simplifyDPStep_unfold, hscan]
      simp only
      rw [if_neg hgt]
      simp

/-- C19: with `highestQuality = true`, `simplify` is monotone in the tolerance:
for every polyline and tolerances `0 ≤ t1 ≤ t2` the result for `t2` is a
subsequence of the result for `t1`, hence never longer. -/
theorem simplify_hq_monotone (points : List (Point α)) (t1 t2 : α) (h1 : 0 ≤ t1)
    (h2 : t1 ≤ t2) :
    ∃ o1 o2, simplify points t1 true = some o1 ∧ simplify points t2 true = some o2 ∧
      o2.Sublist o1 ∧ o2.length ≤ o1.length := by
  by_cases hlen : points.length ≤ 2
  · exact ⟨points, points, simplify_small points t1 true hlen,
      simplify_small points t2 true hlen, List.Sublist.refl _, le_refl _⟩
  · have hsq : t1 * t1 ≤ t2 * t2 := mul_self_le_mul_self h1 h2
    have h0 : points[0]? = some points[0] := List.getElem?_eq_getElem (by omega)
    have hl : points[points.length - 1]? = some points[points.length - 1] :=
      List.getElem?_eq_getElem (by omega)
    obtain ⟨e1, e2, g1, g2, g3⟩ := simplifyDPStep_mono_aux points (t1 * t1) (t2 * t2) hsq
      (points.length - 1) 0 (points.length - 1) [points[0]] [points[0]] (by omega) (by omega)
      (by omega)
    have hs : ([points[0]] ++ e2 ++ [points[points.length - 1]]).Sublist
        ([points[0]] ++ e1 ++ [points[points.length - 1]]) :=
      List.Sublist.append (List.Sublist.append (List.Sublist.refl _) g3) (List.Sublist.refl _)
    refine ⟨[points[0]] ++ e1 ++ [points[points.length - 1]],
      [points[0]] ++ e2 ++ [points[points.length - 1]], ?_, ?_, hs, hs.length_le⟩
    · rw [simplify, if_neg hlen]
      simp only [if_true]
      rw [simplifyDouglasPeucker, h0]
      simp only
      rw [g1]
      simp only
      rw [hl]
    · rw [simplify, if_neg hlen]
      simp only [if_true]
      rw [simplifyDouglasPeucker, h0]
      simp only
      rw [g2]
      simp only
      rw [hl]

/-- C19 at a concrete polyline over the rationals with tolerances `1 ≤ 6`. -/
theorem simplify_hq_monotone_witness :
    (0 : ℚ) ≤ 1 ∧ (1 : ℚ) ≤ 6 ∧
    ∃ o1 o2, simplify ([⟨0, 0⟩, ⟨1, 5⟩, ⟨2, 0⟩] : List (Point ℚ)) 1 true = some o1 ∧
      simplify ([⟨0, 0⟩, ⟨1, 5⟩, ⟨2, 0⟩] : List (Point ℚ)) 6 true = some o2 ∧
      o2.Sublist o1 ∧ o2.length ≤ o1.length :=
  ⟨by norm_num, by norm_num, simplify_hq_monotone _ 1 6 (by norm_num) (by norm_num)⟩

/-- On a range without interior index the step returns its output unchanged. -/
theorem simplifyDPStep_adjacent_aux (points : List (Point α)) (a b : Nat) (tol : α)
    (out : List (Point α)) (h : b ≤ a + 1) : simplifyDPStep points a b tol out = some out := by
  rw [simplifyDPStep_unfold]
  have : b - (a + 1) = 0 := by omega
  simp [this, dpScan]

/-- Reading the element after a prefix. -/
theorem lookup_after_prefix {β : Type} (pre rest : List β) (x : β) :
    (pre ++ x :: rest)[pre.length]? = some x := by
  rw [List.getElem?_append_right (le_refl _)]
  simp

/-- Reading behind the element after a prefix. -/
theorem lookup_behind_prefix {β : Type} (pre rest : List β) (x : β) (j : Nat) :
    (pre ++ x :: rest)[pre.length + 1 + j]? = rest[j]? := by
  rw [List.getElem?_append_right (by omega)]
  have : pre.length + 1 + j - pre.length = j + 1 := by omega
  rw [this, List.getElem?_cons_succ]

/-- What a step keeps on `points` is kept again, whole, by a step on any
vector that holds the range's two end points with exactly the kept points
between them. -/
theorem simplifyDPStep_idem_aux (points : List (Point α)) (tol : α) :
    ∀ (k first last : Nat) (out : List (Point α)) (pf pl : Point α), last - first ≤ k →
      first < last → last < points.length →
      points[first]? = some pf → points[last]? = some pl →
      ∃ ext, simplifyDPStep points first last tol out = some (out ++ ext) ∧
        (∀ q ∈ ext, ∃ j, first < j ∧ j < last ∧ points[j]? = some q) ∧
        ∀ (pre post out' : List (Point α)) (a b : Nat), a = pre.length →
          b = pre.length + ext.length + 1 →
          simplifyDPStep (pre ++ pf :: (ext ++ pl :: post)) a b tol out' =
            some (out' ++ ext) := by
  intro k
  induction k with
  | zero => intro first last _ _ _ h1 h2; omega
  | succ k ih =>
    intro first last out pf pl hk hfl hlast hf hl
    obtain ⟨index, m, hscan, _, hall, hc⟩ :=
      dpScan_spec points first last pf pl hf hl (last - (first + 1)) (first + 1) 0 tol (by omega)
    by_cases hgt : m > tol
    · rcases hc with ⟨_, h2⟩ | ⟨_, h2, h3, ⟨p, hp, hpm⟩, h5⟩
      · exact absurd hgt (by rw [h2]; exact lt_irrefl _)
      subst hpm
      have sub : ∀ (x y : Nat) (o : List (Point α)) (px py : Point α), x < y → y - x ≤ k →
          y < points.length → points[x]? = some px → points[y]? = some py →
          ∃ ext, (if y - x > 1 then simplifyDPStep points x y tol o else some o) =
              some (o ++ ext) ∧
            (∀ q ∈ ext, ∃ j, x < j ∧ j < y ∧ points[j]? = some q) ∧
            ∀ (pre post out' : List (Point α)) (a b : Nat), a = pre.length →
              b = pre.length + ext.length + 1 →
              simplifyDPStep (pre ++ px :: (ext ++ py :: post)) a b tol out' =
                some (out' ++ ext) := by
        intro x y o px py hxy hyk hy hx hy'
        by_cases hg : y - x > 1
        · obtain ⟨ext, g1, g2, g3⟩ := ih x y o px py hyk hxy hy hx hy'
          exact ⟨ext, by rw [if_pos hg, g1], g2, g3⟩
        · refine ⟨[], by rw [if_neg hg]; simp, fun q hq => absurd hq (List.not_mem_nil _), ?_⟩
          intro pre post out' a b ha hb
          rw [simplifyDPStep_adjacent_aux _ a b tol out' (by simp at hb; omega)]
          simp
      obtain ⟨L, hL1, hL2, hL3⟩ := sub first index out pf p (by omega) (by omega) (by omega) hf hp
      obtain ⟨R, hR1, hR2, hR3⟩ := sub index last (out ++ L ++ [p]) p pl (by omega) (by omega)
        hlast hp hl
      refine ⟨L ++ p :: R, ?_, ?_, ?_⟩
      · rw [simplifyDPStep_unfold, hscan]
        simp only
        rw [if_pos hgt, hL1]
        simp only
        rw [hp]
        simp only
        rw [hR1]
        simp
      · intro q hq
        rcases List.mem_append.mp hq with hq | hq
        · obtain ⟨j, j1, j2, j3⟩ := hL2 q hq
          exact ⟨j, j1, by omega, j3⟩
        · rcases List.mem_cons.mp hq with hq | hq
          · subst hq
            exact ⟨index, by omega, by omega, hp⟩
          · obtain ⟨j, j1, j2, j3⟩ := hR2 q hq
            exact ⟨j, by omega, j2, j3⟩
      · intro pre post out' a b ha hb
        subst ha hb
        have hlenE : (L ++ p :: R).length = L.length + 1 + R.length := by
          simp only [List.length_append, List.length_cons]
          omega
        -- the vector read at the positions of the range
        have hQf : (pre ++ pf :: (L ++ p :: R ++ pl :: post))[pre.length]? = some pf :=
          lookup_after_prefix _ _ _
        have hQmid : ∀ j, (pre ++ pf :: (L ++ p :: R ++ pl :: post))[pre.length + 1 + j]? =
            (L ++ p :: R ++ pl :: post)[j]? := fun j => lookup_behind_prefix _ _ _ j
        have hQl : (pre ++ pf :: (L ++ p :: R ++ pl :: post))[pre.length +
            (L ++ p :: R).length + 1]? = some pl := by
          have : pre.length + (L ++ p :: R).length + 1 =
              pre.length + 1 + (L ++ p :: R).length := by omega
          rw [this, hQmid, List.getElem?_append_right (le_refl _)]
          simp
        have hQc : (pre ++ pf :: (L ++ p :: R ++ pl :: post))[pre.length + 1 + L.length]? =
            some p := by
          rw [hQmid, List.append_assoc, List.getElem?_append_right (le_refl _)]
          simp
        -- distances of the kept points
        have hLlt : ∀ q ∈ L, getSqSegDist q pf pl < getSqSegDist p pf pl := by
          intro q hq
          obtain ⟨j, j1, j2, j3⟩ := hL2 q hq
          exact h5 j q (by omega) j2 j3
        have hRle : ∀ q ∈ R, getSqSegDist q pf pl ≤ getSqSegDist p pf pl := by
          intro q hq
          obtain ⟨j, j1, j2, j3⟩ := hR2 q hq
          exact hall j q (by omega) (by omega) j3
        have hscanQ : dpScan (pre ++ pf :: (L ++ p :: R ++ pl :: post)) pre.length
            (pre.length + (L ++ p :: R).length + 1)
            (pre.length + (L ++ p :: R).length + 1 - (pre.length + 1)) (pre.length + 1) 0 tol =
            some (pre.length + 1 + L.length, getSqSegDist p pf pl) := by
          refine dpScan_first_max_aux _ _ _ pf pl hQf hQl _ _ 0 tol ?_ _ p (by omega)
            (by omega) hQc hgt ?_ ?_
          · simp only [List.length_append, List.length_cons]
            omega
          · intro j q j1 j2 hq
            obtain ⟨i, rfl⟩ : ∃ i, j = pre.length + 1 + i := ⟨j - (pre.length + 1), by omega⟩
            rw [hQmid, List.getElem?_append_left (by omega)] at hq
            have hmem := List.getElem?_mem hq
            rcases List.mem_append.mp hmem with hm | hm
            · exact le_of_lt (hLlt q hm)
            · rcases List.mem_cons.mp hm with hm | hm
              · rw [hm]
              · exact hRle q hm
          · intro j q j1 j2 hq
            obtain ⟨i, rfl⟩ : ∃ i, j = pre.length + 1 + i := ⟨j - (pre.length + 1), by omega⟩
            rw [hQmid, List.append_assoc, List.getElem?_append_left (by omega)] at hq
            exact hLlt q (List.getElem?_mem hq)
        -- the left call
        have hleft : (if pre.length + 1 + L.length - pre.length > 1 then
            simplifyDPStep (pre ++ pf :: (L ++ p :: R ++ pl :: post)) pre.length
              (pre.length + 1 + L.length) tol out' else some out') = some (out' ++ L) := by
          by_cases hg : pre.length + 1 + L.length - pre.length > 1
          · rw [if_pos hg]
            have := hL3 pre (R ++ pl :: post) out' pre.length (pre.length + 1 + L.length) rfl
              (by omega)
            simpa [List.append_assoc] using this
          · rw [if_neg hg]
            have : L = [] := List.length_eq_zero.mp (by omega)
            rw [this]
            simp
        -- the right call
        have hright : (if pre.length + (L ++ p :: R).length + 1 - (pre.length + 1 + L.length) > 1
            then simplifyDPStep (pre ++ pf :: (L ++ p :: R ++ pl :: post))
              (pre.length + 1 + L.length) (pre.length + (L ++ p :: R).length + 1) tol
              (out' ++ L ++ [p])
            else some (out' ++ L ++ [p])) = some (out' ++ L ++ [p] ++ R) := by
          by_cases hg : pre.length + (L ++ p :: R).length + 1 - (pre.length + 1 + L.length) > 1
          · rw [if_pos hg]
            have := hR3 (pre ++ pf :: L) post (out' ++ L ++ [p]) (pre.length + 1 + L.length)
              (pre.length + (L ++ p :: R).length + 1)
              (by simp only [List.length_append, List.length_cons]; omega)
              (by simp only [List.length_append, List.length_cons]; omega)
            simpa [List.append_assoc] using this
          · rw [if_neg hg]
            have : R = [] := List.length_eq_zero.mp (by omega)
            rw [this]
            simp
        rw [simplifyDPStep_unfold, hscanQ]
        simp only
        rw [if_pos hgt, hleft]
        simp only
        rw [hQc]
        simp only
        rw [hright]
        simp
    · refine ⟨[], ?_, fun q hq => absurd hq (List.not_mem_nil _), ?_⟩
      · rw [simplifyDPStep_unfold, hscan]
        simp only
        rw [if_neg hgt]
        simp
      · intro pre post out' a b ha hb
        rw [simplifyDPStep_adjacent_aux _ a b tol out' (by simp at hb; omega)]
        simp

/-- C18: with `highestQuality = true`, `simplify` is idempotent: for every
polyline and every tolerance `t`, running `simplify` on its own result returns
that result again. -/
theorem simplify_hq_idempotent (points : List (Point α)) (t : α) :
    ∃ once, simplify points t true = some once ∧ simplify once t true = some once := by
  by_cases hlen : points.length ≤ 2
  · exact ⟨points, simplify_small points t true hlen, simplify_small points t true hlen⟩
  · obtain ⟨p0, h0⟩ : ∃ p0, points[0]? = some p0 :=
      ⟨_, List.getElem?_eq_getElem (by omega)⟩
    obtain ⟨pl, hl⟩ : ∃ pl, points[points.length - 1]? = some pl :=
      ⟨_, List.getElem?_eq_getElem (by omega)⟩
    obtain ⟨ext, e1, _, e3⟩ := simplifyDPStep_idem_aux points (t * t) (points.length - 1) 0
      (points.length - 1) [p0] p0 pl (by omega) (by omega) (by omega) h0 hl
    have hfirst : simplify points t true = some ((p0 :: ext) ++ [pl]) := by
      rw [simplify, if_neg hlen]
      simp only [if_true]
      rw [simplifyDouglasPeucker, h0]
      simp only
      rw [e1]
      simp only
      rw [hl]
      rfl
    refine ⟨_, hfirst, ?_⟩
    by_cases hlen2 : ((p0 :: ext) ++ [pl]).length ≤ 2
    · exact simplify_small _ t true hlen2
    · have hstep : simplifyDPStep ((p0 :: ext) ++ [pl]) 0 (ext.length + 1) (t * t) [p0] =
          some ([p0] ++ ext) :=
        e3 [] [] [p0] 0 (ext.length + 1) rfl (by simp)
      have hlast : ((p0 :: ext) ++ [pl]).length - 1 = ext.length + 1 := by simp
      have hlookup : ((p0 :: ext) ++ [pl])[ext.length + 1]? = some pl :=
        lookup_after_prefix (p0 :: ext) [] pl
      have h0' : ((p0 :: ext) ++ [pl])[0]? = some p0 := by simp
      rw [simplify, if_neg hlen2]
      simp only [if_true]
      rw [simplifyDouglasPeucker, h0']
      simp only
      rw [hlast, hstep]
      simp only
      rw [hlookup]
      rfl

end Simplify
